import Mathlib

/-!
Verification development for the Furnitech mesh-repair core.

The repository's cli-tool scripts drive Blender edit-mode operators over a
triangulated mesh.  This file gives a shallow embedding of the mesh data
model and of the operations the scripts perform, and proves the behavioural
properties stated in the specification.  Pure computations of the scripts
(bounding boxes, axis detection, thresholds, face partitions, material
bookkeeping) are translated directly from the Python sources.  Host
operators whose bodies are not part of the repository (vertex welding,
boundary-edge scanning, hole filling) are modelled from the specification,
as flagged in their doc comments.  Vertex coordinates are rational numbers;
`matrix_world` is modelled as the identity (all coordinates world-space).
-/

namespace Furnitech

/-! ## Topology: edges, incidence and boundary

Modelled from the spec: `findBoundaryEdges` (§4.2) "builds an edge→face-
incidence count map in one pass over all faces (each face of k vertices
contributes k edges); returns edges with incidence count exactly 1".
A face is its ordered list of vertex indices; an edge the unordered pair
of consecutive loop vertices, normalised so the smaller index comes first.
Faces with fewer than two vertices contribute no edges.
-/

/-- Normalised unordered pair of vertex indices. -/
def edgeKey (a b : Nat) : Nat × Nat := if a ≤ b then (a, b) else (b, a)

/-- Edges of an open vertex chain: one edge per consecutive pair. -/
def pathEdges : List Nat → List (Nat × Nat)
  | a :: b :: t => edgeKey a b :: pathEdges (b :: t)
  | _ => []

/-- Last element of the nonempty list `a :: l`. -/
def lastV : Nat → List Nat → Nat
  | a, [] => a
  | _, b :: t => lastV b t

/-- Edges of a face loop: the chain edges plus the closing edge. -/
def faceEdges : List Nat → List (Nat × Nat)
  | [] => []
  | [_] => []
  | a :: b :: t => pathEdges (a :: b :: t) ++ [edgeKey (lastV b t) a]

/-- All edge slots of a face list, with multiplicity. -/
def allEdges (faces : List (List Nat)) : List (Nat × Nat) :=
  faces.flatMap faceEdges

/-- Incidence count of an edge over a face list. -/
def edgeCount (faces : List (List Nat)) (e : Nat × Nat) : Nat :=
  (allEdges faces).count e

/-- The boundary edges: incidence count exactly 1, listed once each. -/
def boundaryList (faces : List (List Nat)) : List (Nat × Nat) :=
  (allEdges faces).dedup.filter (fun e => edgeCount faces e == 1)

/-- Number of boundary edges. -/
def boundaryCount (faces : List (List Nat)) : Nat :=
  (boundaryList faces).length

theorem edgeKey_comm (a b : Nat) : edgeKey a b = edgeKey b a := by
  unfold edgeKey
  rcases Nat.le_total a b with h | h
  · rcases Nat.lt_or_ge a b with h' | h'
    · simp [h, Nat.not_le.mpr h']
    · have : a = b := Nat.le_antisymm h h'
      simp [this]
  · rcases Nat.lt_or_ge b a with h' | h'
    · simp [h, Nat.not_le.mpr h']
    · have : b = a := Nat.le_antisymm h h'
      simp [this]

theorem edgeKey_fst_le_snd (a b : Nat) : (edgeKey a b).1 ≤ (edgeKey a b).2 := by
  unfold edgeKey
  split
  · simpa
  · simp only
    omega

theorem edgeKey_of_le {a b : Nat} (h : a ≤ b) : edgeKey a b = (a, b) := by
  simp [edgeKey, h]

/-- The two components of a normalised edge are its endpoints. -/
theorem edgeKey_eq_or (a b : Nat) :
    edgeKey a b = (a, b) ∨ edgeKey a b = (b, a) := by
  unfold edgeKey
  split <;> simp

theorem mem_boundaryList_iff {faces : List (List Nat)} {e : Nat × Nat} :
    e ∈ boundaryList faces ↔ edgeCount faces e = 1 := by
  unfold boundaryList
  constructor
  · intro h
    have := List.of_mem_filter h
    simpa using this
  · intro h
    refine List.mem_filter.mpr ⟨?_, by simpa using h⟩
    have h' : (allEdges faces).count e = 1 := h
    have : 0 < (allEdges faces).count e := by omega
    exact List.mem_dedup.mpr (List.count_pos_iff.mp this)

theorem boundaryList_nodup (faces : List (List Nat)) :
    (boundaryList faces).Nodup :=
  ((allEdges faces).nodup_dedup).filter _

/-! ## Hole filling

Modelled from the spec: `fillHoles` (§4.3) "repeats up to `maxPasses` times:
compute boundary edges via 4.2; if none remain, stop (success, remaining=0);
otherwise attempt to close the boundary loop(s) formed by those edges", with
the grid-fill strategy preferred for rectangle-like loops and fan
triangulation from an anchor vertex as the fallback, disjoint loops closed
independently in the same pass, and unfillable loops skipped.  The loop
structure (three passes, stopping at the first scan with no boundary edges)
follows `fix_holes_aggressive.py` lines 67-103.  Orientation passes between
scans reverse face windings only, which leaves the edge incidence map
unchanged, so they are omitted here; planarity of a loop is not visible to
the topological model, which treats every 4-cycle as grid-fillable. -/

/-- Fan triangulation of the loop `v0 :: vs` anchored at `v0`. -/
def fanFaces (v0 : Nat) : List Nat → List (List Nat)
  | a :: b :: t => [v0, a, b] :: fanFaces v0 (b :: t)
  | _ => []

/-- Close one extracted loop: grid fill (one quad) for a 4-cycle,
fan triangulation otherwise. -/
def closeLoop (l : List Nat) : List (List Nat) :=
  match l with
  | [] => []
  | v0 :: vs => if vs.length = 3 then [v0 :: vs] else fanFaces v0 vs

/-- `true` when the edge is incident to vertex `c`. -/
def edgeIncB (c : Nat) (e : Nat × Nat) : Bool := e.1 == c || e.2 == c

/-- The endpoint of `e` other than `c`. -/
def otherEnd (c : Nat) (e : Nat × Nat) : Nat := if e.1 = c then e.2 else e.1

/-- Remove the first occurrence of an edge from an edge list. -/
def eraseFirst : List (Nat × Nat) → (Nat × Nat) → List (Nat × Nat)
  | [], _ => []
  | x :: t, e => if x = e then t else x :: eraseFirst t e

theorem mem_of_mem_eraseFirst :
    ∀ {l : List (Nat × Nat)} {e y : Nat × Nat}, y ∈ eraseFirst l e → y ∈ l := by
  intro l
  induction l with
  | nil => intro e y hy; simp [eraseFirst] at hy
  | cons x t ih =>
    intro e y hy
    simp only [eraseFirst] at hy
    split at hy
    · exact List.mem_cons_of_mem x hy
    · rcases List.mem_cons.mp hy with rfl | hy'
      · exact List.mem_cons_self _ _
      · exact List.mem_cons_of_mem x (ih hy')

theorem perm_cons_eraseFirst :
    ∀ {l : List (Nat × Nat)} {e : Nat × Nat}, e ∈ l → l.Perm (e :: eraseFirst l e) := by
  intro l
  induction l with
  | nil => intro e he; simp at he
  | cons x t ih =>
    intro e he
    by_cases hx : x = e
    · subst hx
      simp [eraseFirst]
    · have het : e ∈ t := by
        rcases List.mem_cons.mp he with rfl | h
        · exact absurd rfl hx
        · exact h
      have h1 : (x :: t).Perm (x :: (e :: eraseFirst t e)) := (ih het).cons x
      have h2 : (x :: e :: eraseFirst t e).Perm (e :: x :: eraseFirst t e) :=
        List.Perm.swap e x _
      have h3 : eraseFirst (x :: t) e = x :: eraseFirst t e := by
        simp [eraseFirst, hx]
      rw [h3]
      exact h1.trans h2

theorem eraseFirst_perm_of_perm_cons {l t : List (Nat × Nat)} {e : Nat × Nat}
    (h : l.Perm (e :: t)) : (eraseFirst l e).Perm t := by
  have he : e ∈ l := h.mem_iff.mpr (List.mem_cons_self _ _)
  have h1 := perm_cons_eraseFirst he
  exact (h1.symm.trans h).cons_inv

/-- Walk along unused boundary edges from the head of `path` until the walk
returns to `s`, never revisiting a vertex.  Returns the closed loop (in walk
order) and the unused edges, or `none` when the walk gets stuck. -/
def walkLoop : Nat → Nat → List Nat → List (Nat × Nat) →
    Option (List Nat × List (Nat × Nat))
  | 0, _, _, _ => none
  | fuel+1, s, path, rem =>
    match path with
    | [] => none
    | c :: _ =>
      match rem.find? (edgeIncB c) with
      | none => none
      | some e =>
        if otherEnd c e = s then
          if 3 ≤ path.length then some (path.reverse, eraseFirst rem e) else none
        else if otherEnd c e ∈ path then none
        else walkLoop fuel s (otherEnd c e :: path) (eraseFirst rem e)

/-- Extract boundary loops: repeatedly walk from the first unused edge;
an edge whose walk gets stuck is skipped (its loop cannot be filled). -/
def extractLoopsAux : Nat → List (Nat × Nat) → List (List Nat)
  | 0, _ => []
  | fuel+1, es =>
    match es with
    | [] => []
    | e :: rest =>
      match walkLoop es.length e.1 [e.2, e.1] rest with
      | some (loop, rem) => loop :: extractLoopsAux fuel rem
      | none => extractLoopsAux fuel rest

/-- All boundary loops extracted from an edge list. -/
def extractLoops (es : List (Nat × Nat)) : List (List Nat) :=
  extractLoopsAux es.length es

/-- One pass of the hole filler: close every extracted boundary loop,
appending the new faces to the mesh. -/
def fillPass (faces : List (List Nat)) : List (List Nat) :=
  faces ++ (extractLoops (boundaryList faces)).flatMap closeLoop

/-- The pass loop of `fix_holes_aggressive.py` lines 67-103: up to `n`
passes, stopping as soon as a scan finds no boundary edges. -/
def fix_holes_passes : Nat → List (List Nat) → List (List Nat)
  | 0, faces => faces
  | n+1, faces =>
    if boundaryCount faces = 0 then faces else fix_holes_passes n (fillPass faces)

/-- `fix_holes_aggressive` hole-filling stage with `maxPasses = 3`,
returning the mesh and the remaining boundary-edge count. -/
def fix_holes_aggressive (faces : List (List Nat)) : List (List Nat) × Nat :=
  let out := fix_holes_passes 3 faces
  (out, boundaryCount out)

/-! ### Chain and loop edge bookkeeping -/

theorem lastV_cons (a b : Nat) (t : List Nat) :
    lastV a (b :: t) = lastV b t := rfl

theorem lastV_append (y : Nat) (ys : List Nat) :
    ∀ (t : List Nat) (a : Nat), lastV a (t ++ y :: ys) = lastV y ys := by
  intro t
  induction t with
  | nil => intro a; rfl
  | cons b t ih => intro a; simpa [lastV] using ih b


theorem pathEdges_append_cons (y : Nat) (ys : List Nat) :
    ∀ (t : List Nat) (a : Nat),
      pathEdges (a :: (t ++ y :: ys)) =
        pathEdges (a :: t) ++ edgeKey (lastV a t) y :: pathEdges (y :: ys) := by
  intro t
  induction t with
  | nil => intro a; simp [pathEdges, lastV]
  | cons b t ih =>
    intro a
    simp only [List.cons_append, pathEdges, lastV_cons, List.append_eq]
    rw [ih b]

theorem pathEdges_snoc (t : List Nat) (a y : Nat) :
    pathEdges (a :: (t ++ [y])) = pathEdges (a :: t) ++ [edgeKey (lastV a t) y] := by
  simpa [pathEdges] using pathEdges_append_cons y [] t a

/-- Splitting a face loop at the first vertex. -/
theorem faceEdges_cons_cons (s c : Nat) (A : List Nat) :
    faceEdges (s :: c :: A) = edgeKey s c :: pathEdges (c :: (A ++ [s])) := by
  rw [pathEdges_snoc]
  simp [faceEdges, pathEdges, lastV]

/-- Splitting a face loop at its first two vertices. -/
theorem faceEdges_split (v0 a b : Nat) (t : List Nat) :
    faceEdges (v0 :: a :: b :: t) =
      edgeKey v0 a :: edgeKey a b :: pathEdges (b :: (t ++ [v0])) := by
  rw [faceEdges_cons_cons]
  simp [pathEdges]

theorem allEdges_nil : allEdges [] = [] := rfl

theorem allEdges_cons (f : List Nat) (fs : List (List Nat)) :
    allEdges (f :: fs) = faceEdges f ++ allEdges fs := rfl

theorem allEdges_append (fs gs : List (List Nat)) :
    allEdges (fs ++ gs) = allEdges fs ++ allEdges gs := by
  simp [allEdges]

theorem faceEdges_triangle (v0 a b : Nat) :
    faceEdges [v0, a, b] = [edgeKey v0 a, edgeKey a b, edgeKey b v0] := rfl

/-- Every edge that occurs exactly once in a fan of the loop `v0 :: a :: b :: t`
is one of the loop's own edges (the fan diagonals occur twice). -/
theorem fan_count_mem :
    ∀ (t : List Nat) (a b v0 : Nat) (e : Nat × Nat),
      (allEdges (fanFaces v0 (a :: b :: t))).count e = 1 →
      e ∈ faceEdges (v0 :: a :: b :: t) := by
  intro t
  induction t with
  | nil =>
    intro a b v0 e h
    have hm : e ∈ allEdges (fanFaces v0 [a, b]) :=
      List.count_pos_iff.mp (by omega)
    simpa [fanFaces, allEdges_cons, allEdges_nil, faceEdges_triangle,
      faceEdges_split, pathEdges] using hm
  | cons c t ih =>
    intro a b v0 e h
    have hsplit :
        (allEdges (fanFaces v0 (a :: b :: c :: t))).count e =
          (faceEdges [v0, a, b]).count e +
            (allEdges (fanFaces v0 (b :: c :: t))).count e := by
      simp [fanFaces, allEdges_cons, List.count_append]
    rw [hsplit] at h
    have hvb : edgeKey v0 b ∈ allEdges (fanFaces v0 (b :: c :: t)) := by
      simp [fanFaces, allEdges_cons, faceEdges_triangle]
    rw [faceEdges_split]
    simp only [List.cons_append, pathEdges]
    rcases Nat.eq_zero_or_pos ((faceEdges [v0, a, b]).count e) with h0 | hpos
    · -- the edge comes from the rest of the fan: use the induction hypothesis
      have h1 : (allEdges (fanFaces v0 (b :: c :: t))).count e = 1 := by omega
      have hmem := ih b c v0 e h1
      rw [faceEdges_split] at hmem
      rcases List.mem_cons.mp hmem with rfl | hmem
      · -- e = edgeKey v0 b is a fan diagonal here, so its triangle count is not 0
        exfalso
        have hT : edgeKey v0 b ∈ faceEdges [v0, a, b] := by
          rw [faceEdges_triangle, edgeKey_comm v0 b]
          simp
        have := List.count_pos_iff.mpr hT
        omega
      · simp only [List.mem_cons] at hmem ⊢
        tauto
    · -- the edge comes from the first triangle
      have h2 : (allEdges (fanFaces v0 (b :: c :: t))).count e = 0 := by omega
      have hmem : e ∈ faceEdges [v0, a, b] := List.count_pos_iff.mp hpos
      rw [faceEdges_triangle] at hmem
      rcases List.mem_cons.mp hmem with rfl | hmem
      · simp
      rcases List.mem_cons.mp hmem with rfl | hmem
      · simp
      rcases List.mem_cons.mp hmem with rfl | hmem
      · -- e = edgeKey b v0 also opens the rest of the fan: count contradiction
        exfalso
        have : edgeKey b v0 ∈ allEdges (fanFaces v0 (b :: c :: t)) := by
          rw [edgeKey_comm b v0]; exact hvb
        have := List.count_pos_iff.mpr this
        omega
      · simp at hmem

/-- Every loop edge occurs in the fan of the loop. -/
theorem faceEdges_subset_fan :
    ∀ (t : List Nat) (a b v0 : Nat),
      faceEdges (v0 :: a :: b :: t) ⊆ allEdges (fanFaces v0 (a :: b :: t)) := by
  intro t
  induction t with
  | nil =>
    intro a b v0
    simp [fanFaces, allEdges_cons, allEdges_nil, faceEdges_split,
      faceEdges_triangle, pathEdges, List.subset_def]
  | cons c t ih =>
    intro a b v0 e he
    have hcons : allEdges (fanFaces v0 (a :: b :: c :: t)) =
        faceEdges [v0, a, b] ++ allEdges (fanFaces v0 (b :: c :: t)) := by
      simp [fanFaces, allEdges_cons]
    rw [hcons]
    rw [faceEdges_split] at he
    simp only [List.cons_append, pathEdges, List.mem_cons] at he
    rcases he with rfl | he
    · exact List.mem_append.mpr (Or.inl (by simp [faceEdges_triangle]))
    rcases he with rfl | he
    · exact List.mem_append.mpr (Or.inl (by simp [faceEdges_triangle]))
    · -- a chain edge of b :: c :: t ++ [v0]: a loop edge of the sub-fan's loop
      refine List.mem_append.mpr (Or.inr (ih b c v0 ?_))
      rw [faceEdges_split]
      simp only [List.mem_cons]
      tauto

/-- Edges occurring exactly once among the faces closing a loop are loop
edges, for either closing strategy. -/
theorem closeLoop_count_mem (l : List Nat) (e : Nat × Nat)
    (h : (allEdges (closeLoop l)).count e = 1) : e ∈ faceEdges l := by
  cases l with
  | nil => simp [closeLoop, allEdges_nil] at h
  | cons v0 vs =>
    simp only [closeLoop] at h
    split at h
    · have hm : e ∈ allEdges [v0 :: vs] := List.count_pos_iff.mp (by omega)
      simpa [allEdges_cons, allEdges_nil] using hm
    · cases vs with
      | nil => simp [fanFaces, allEdges_nil] at h
      | cons a vs' =>
        cases vs' with
        | nil => simp [fanFaces, allEdges_nil] at h
        | cons b t => exact fan_count_mem t a b v0 e h

/-- Every loop edge occurs among the faces closing the loop (loops of at
least three vertices). -/
theorem faceEdges_subset_closeLoop (l : List Nat) (hl : 3 ≤ l.length) :
    faceEdges l ⊆ allEdges (closeLoop l) := by
  cases l with
  | nil => simp at hl
  | cons v0 vs =>
    cases vs with
    | nil => simp at hl
    | cons a vs' =>
      cases vs' with
      | nil => simp at hl
      | cons b t =>
        simp only [closeLoop]
        split
        · simp [allEdges_cons, allEdges_nil]
        · exact faceEdges_subset_fan t a b v0

/-! ### Walker soundness: every edge of an extracted loop is a boundary edge -/

/-- Last element of a list, with default 0. -/
def lastL : List Nat → Nat
  | [] => 0
  | a :: t => lastV a t

theorem lastL_snoc (q : List Nat) (c : Nat) : lastL (q ++ [c]) = c := by
  cases q with
  | nil => rfl
  | cons x t => simpa [lastL] using lastV_append c [] t x

theorem lastL_reverse (c : Nat) (p : List Nat) : lastL ((c :: p).reverse) = c := by
  rw [List.reverse_cons]; exact lastL_snoc _ c

theorem headD_reverse : ∀ (p : List Nat) (c : Nat),
    ((c :: p).reverse).headD 0 = lastL (c :: p) := by
  intro p
  induction p with
  | nil => intro c; rfl
  | cons b t ih =>
    intro c
    rw [List.reverse_cons]
    cases hrev : (b :: t).reverse with
    | nil => simp at hrev
    | cons x xs =>
      have hx : x = lastL (b :: t) := by
        have := ih b
        rw [hrev] at this
        simpa using this
      simp [hrev, hx, lastL, lastV]

theorem faceEdges_eq_path_closing (a b : Nat) (t : List Nat) :
    faceEdges (a :: b :: t) =
      pathEdges (a :: b :: t) ++ [edgeKey (lastL (a :: b :: t)) ((a :: b :: t).headD 0)] := rfl

theorem pathEdges_normalized : ∀ (l : List Nat) (e : Nat × Nat),
    e ∈ pathEdges l → e.1 ≤ e.2 := by
  intro l
  induction l with
  | nil => intro e he; simp [pathEdges] at he
  | cons a t ih =>
    intro e he
    cases t with
    | nil => simp [pathEdges] at he
    | cons b t' =>
      rcases List.mem_cons.mp (by simpa [pathEdges] using he) with rfl | h
      · exact edgeKey_fst_le_snd a b
      · exact ih e h

theorem faceEdges_normalized (l : List Nat) (e : Nat × Nat)
    (he : e ∈ faceEdges l) : e.1 ≤ e.2 := by
  match l with
  | [] => simp [faceEdges] at he
  | [_] => simp [faceEdges] at he
  | a :: b :: t =>
    have hd : e ∈ pathEdges (a :: b :: t) ∨ e = edgeKey (lastV b t) a := by
      simpa [faceEdges] using he
    rcases hd with h | rfl
    · exact pathEdges_normalized _ e h
    · exact edgeKey_fst_le_snd _ _

theorem boundaryList_normalized (faces : List (List Nat)) (e : Nat × Nat)
    (he : e ∈ boundaryList faces) : e.1 ≤ e.2 := by
  have h1 : e ∈ (allEdges faces).dedup := List.mem_of_mem_filter he
  have h2 : e ∈ allEdges faces := List.mem_dedup.mp h1
  rcases List.mem_flatMap.mp h2 with ⟨f, _, hf⟩
  exact faceEdges_normalized f e hf

theorem edgeKey_otherEnd {c : Nat} {e : Nat × Nat} (hnorm : e.1 ≤ e.2)
    (hinc : edgeIncB c e = true) : edgeKey c (otherEnd c e) = e := by
  simp only [edgeIncB, Bool.or_eq_true, beq_iff_eq] at hinc
  unfold otherEnd
  by_cases h1 : e.1 = c
  · rw [if_pos h1]
    rw [edgeKey_of_le (h1 ▸ hnorm)]
    rw [← h1]
  · rw [if_neg h1]
    have h2 : e.2 = c := hinc.resolve_left h1
    rw [edgeKey_comm, edgeKey_of_le (h2 ▸ hnorm), ← h2]

/-- Soundness of the loop walker: the returned loop's edges (including the
closing edge) all lie in `S` whenever the walked edges and the unused edges
do, and the returned unused edges still lie in `S`. -/
theorem walkLoop_sound (S : List (Nat × Nat)) :
    ∀ (fuel : Nat) (s : Nat) (path : List Nat) (rem : List (Nat × Nat))
      (loop : List Nat) (rem' : List (Nat × Nat)),
      walkLoop fuel s path rem = some (loop, rem') →
      (∀ e ∈ rem, e ∈ S ∧ e.1 ≤ e.2) →
      (∀ e ∈ pathEdges path.reverse, e ∈ S) →
      lastL path = s →
      (∀ e ∈ faceEdges loop, e ∈ S) ∧ (∀ e ∈ rem', e ∈ S ∧ e.1 ≤ e.2) := by
  intro fuel
  induction fuel with
  | zero => intro s path rem loop rem' h _ _ _; simp [walkLoop] at h
  | succ fuel ih =>
    intro s path rem loop rem' h hrem hpath hlast
    cases path with
    | nil => simp [walkLoop] at h
    | cons c p =>
      simp only [walkLoop] at h
      split at h
      · simp at h
      · rename_i e hfind
        have hememrem : e ∈ rem := List.mem_of_find?_eq_some hfind
        have hinc : edgeIncB c e = true := List.find?_some hfind
        have heS := hrem e hememrem
        have hek : edgeKey c (otherEnd c e) = e := edgeKey_otherEnd heS.2 hinc
        by_cases hw : otherEnd c e = s
        · rw [if_pos hw] at h
          by_cases h3 : 3 ≤ (c :: p).length
          · rw [if_pos h3] at h
            simp only [Option.some.injEq, Prod.mk.injEq] at h
            obtain ⟨hloop, hrem'⟩ := h
            subst hloop; subst hrem'
            constructor
            · intro e' he'
              match hshape : (c :: p).reverse, he' with
              | a :: b :: t, he' =>
                rw [faceEdges_eq_path_closing] at he'
                rcases List.mem_append.mp he' with h4 | h4
                · exact hpath e' (by rw [hshape]; exact h4)
                · rcases List.mem_singleton.mp h4 with rfl
                  have hl : lastL (a :: b :: t) = c := by
                    rw [← hshape]; exact lastL_reverse c p
                  have hh : (a :: b :: t).headD 0 = s := by
                    rw [← hshape, headD_reverse]; exact hlast
                  rw [hl, hh, ← hw, hek]
                  exact heS.1
            · intro e' he'
              exact hrem e' (mem_of_mem_eraseFirst he')
          · rw [if_neg h3] at h; simp at h
        · rw [if_neg hw] at h
          by_cases hmem : otherEnd c e ∈ c :: p
          · rw [if_pos hmem] at h; simp at h
          · rw [if_neg hmem] at h
            refine ih s (otherEnd c e :: c :: p) (eraseFirst rem e) loop rem' h ?_ ?_ ?_
            · intro e' he'; exact hrem e' (mem_of_mem_eraseFirst he')
            · rw [List.reverse_cons]
              cases hrev : (c :: p).reverse with
              | nil => simp at hrev
              | cons x xs =>
                intro e' he'
                rw [List.cons_append, pathEdges_snoc] at he'
                rcases List.mem_append.mp he' with h4 | h4
                · exact hpath e' (by rw [hrev]; exact h4)
                · rcases List.mem_singleton.mp h4 with rfl
                  have hx : lastV x xs = c := by
                    have := lastL_reverse c p
                    rw [hrev] at this
                    simpa [lastL] using this
                  rw [hx, hek]
                  exact heS.1
            · simpa [lastL, lastV] using hlast

/-- Soundness of loop extraction: every extracted loop consists of edges
of the given edge list. -/
theorem extractLoopsAux_sound (S : List (Nat × Nat)) :
    ∀ (fuel : Nat) (es : List (Nat × Nat)),
      (∀ e ∈ es, e ∈ S ∧ e.1 ≤ e.2) →
      ∀ l ∈ extractLoopsAux fuel es, ∀ e ∈ faceEdges l, e ∈ S := by
  intro fuel
  induction fuel with
  | zero => intro es hes l hl; simp [extractLoopsAux] at hl
  | succ fuel ih =>
    intro es hes l hl
    cases es with
    | nil => simp [extractLoopsAux] at hl
    | cons e rest =>
      simp only [extractLoopsAux] at hl
      split at hl
      · rename_i loop rem hwalk
        have hsound := walkLoop_sound S (e :: rest).length e.1 [e.2, e.1] rest
          loop rem hwalk ?_ ?_ ?_
        · rcases List.mem_cons.mp hl with rfl | hl'
          · exact hsound.1
          · exact ih rem hsound.2 l hl'
        · intro e' he'; exact hes e' (List.mem_cons_of_mem e he')
        · intro e' he'
          have hnorm : e.1 ≤ e.2 := (hes e (List.mem_cons_self e rest)).2
          have hpe : pathEdges ([e.2, e.1].reverse) = [e] := by
            simp [pathEdges, edgeKey_of_le hnorm]
          rw [hpe] at he'
          rcases List.mem_singleton.mp he' with rfl
          exact (hes e' (List.mem_cons_self e' rest)).1
        · rfl
      · exact ih rest (fun e' he' => hes e' (List.mem_cons_of_mem e he')) l hl

theorem extractLoops_sound (es : List (Nat × Nat))
    (hes : ∀ e ∈ es, e.1 ≤ e.2) :
    ∀ l ∈ extractLoops es, ∀ e ∈ faceEdges l, e ∈ es :=
  extractLoopsAux_sound es es.length es (fun e he => ⟨he, hes e he⟩)

/-! ### Monotonicity of a fill pass -/

theorem flatMap_closeLoop_count (e : Nat × Nat) :
    ∀ (loops : List (List Nat)),
      (allEdges (loops.flatMap closeLoop)).count e = 1 →
      ∃ l ∈ loops, (allEdges (closeLoop l)).count e = 1 := by
  intro loops
  induction loops with
  | nil => intro h; simp [allEdges_nil] at h
  | cons l ls ih =>
    intro h
    rw [List.flatMap_cons, allEdges_append, List.count_append] at h
    rcases Nat.eq_zero_or_pos ((allEdges (closeLoop l)).count e) with h0 | hpos
    · obtain ⟨l', hl', hc⟩ := ih (by omega)
      exact ⟨l', List.mem_cons_of_mem l hl', hc⟩
    · exact ⟨l, List.mem_cons_self l ls, by omega⟩

/-- A fill pass never creates a boundary edge: the boundary edges after the
pass are among the boundary edges before it. -/
theorem fillPass_boundary_subset (faces : List (List Nat)) :
    boundaryList (fillPass faces) ⊆ boundaryList faces := by
  intro e he
  rw [mem_boundaryList_iff] at he ⊢
  unfold fillPass at he
  unfold edgeCount at he
  rw [allEdges_append, List.count_append] at he
  rcases Nat.eq_zero_or_pos
      ((allEdges ((extractLoops (boundaryList faces)).flatMap closeLoop)).count e)
    with h0 | hpos
  · unfold edgeCount
    omega
  · exfalso
    have hc1 : (allEdges ((extractLoops (boundaryList faces)).flatMap closeLoop)).count e = 1 ∧
        (allEdges faces).count e = 0 := by omega
    obtain ⟨l, hl, hcl⟩ := flatMap_closeLoop_count e _ hc1.1
    have hmem : e ∈ faceEdges l := closeLoop_count_mem l e hcl
    have hB : e ∈ boundaryList faces :=
      extractLoops_sound (boundaryList faces) (boundaryList_normalized faces) l hl e hmem
    have := mem_boundaryList_iff.mp hB
    unfold edgeCount at this
    omega

/-- A fill pass never increases the boundary-edge count. -/
theorem fillPass_boundaryCount_le (faces : List (List Nat)) :
    boundaryCount (fillPass faces) ≤ boundaryCount faces :=
  ((boundaryList_nodup (fillPass faces)).subperm
    (fillPass_boundary_subset faces)).length_le

/-! ### Cyclic invariance of loop edges

A boundary loop may be handed to the walker starting from any of its edges
and in either direction; these lemmas let the completeness proof reorient
the loop accordingly. -/

theorem pathEdges_length : ∀ (t : List Nat) (a : Nat),
    (pathEdges (a :: t)).length = t.length := by
  intro t
  induction t with
  | nil => intro a; rfl
  | cons b t ih => intro a; simpa [pathEdges] using ih b

theorem faceEdges_length (a b : Nat) (t : List Nat) :
    (faceEdges (a :: b :: t)).length = t.length + 2 := by
  simp [faceEdges, pathEdges_length]

theorem faceEdges_general (l : List Nat) (h : 2 ≤ l.length) :
    faceEdges l = pathEdges l ++ [edgeKey (lastL l) (l.headD 0)] := by
  cases l with
  | nil => simp at h
  | cons a t =>
    cases t with
    | nil => simp at h
    | cons b t' => rfl

/-- Every chain edge joins two members of the chain. -/
theorem pathEdges_mem_endpoints : ∀ (l : List Nat) (e : Nat × Nat),
    e ∈ pathEdges l → ∃ u v, e = edgeKey u v ∧ u ∈ l ∧ v ∈ l := by
  intro l
  induction l with
  | nil => intro e he; simp [pathEdges] at he
  | cons a t ih =>
    intro e he
    cases t with
    | nil => simp [pathEdges] at he
    | cons b t' =>
      rcases List.mem_cons.mp (by simpa [pathEdges] using he) with rfl | h
      · exact ⟨a, b, rfl, by simp, by simp⟩
      · obtain ⟨u, v, hk, hu, hv⟩ := ih e h
        exact ⟨u, v, hk, List.mem_cons_of_mem a hu, List.mem_cons_of_mem a hv⟩

/-- A chain edge splits the chain around its two endpoints. -/
theorem pathEdges_mem_split : ∀ (l : List Nat) (e : Nat × Nat),
    e ∈ pathEdges l → ∃ P u v Q, l = P ++ u :: v :: Q ∧ e = edgeKey u v := by
  intro l
  induction l with
  | nil => intro e he; simp [pathEdges] at he
  | cons a t ih =>
    intro e he
    cases t with
    | nil => simp [pathEdges] at he
    | cons b t' =>
      rcases List.mem_cons.mp (by simpa [pathEdges] using he) with rfl | h
      · exact ⟨[], a, b, t', rfl, rfl⟩
      · obtain ⟨P, u, v, Q, hsplit, hk⟩ := ih e h
        exact ⟨a :: P, u, v, Q, by rw [hsplit]; rfl, hk⟩

/-- Rotating a loop permutes its edge list. -/
theorem faceEdges_rotate (X Y : List Nat) :
    (faceEdges (X ++ Y)).Perm (faceEdges (Y ++ X)) := by
  cases X with
  | nil => simp
  | cons x xt =>
    cases Y with
    | nil => simp
    | cons y yt =>
      have hXY : faceEdges ((x :: xt) ++ (y :: yt)) =
          (pathEdges (x :: xt) ++ edgeKey (lastV x xt) y :: pathEdges (y :: yt)) ++
            [edgeKey (lastV y yt) x] := by
        have h1 : (x :: xt) ++ (y :: yt) = x :: (xt ++ y :: yt) := rfl
        rw [h1, faceEdges_general _ (by simp only [List.length_cons, List.length_append]; omega),
          pathEdges_append_cons]
        simp [lastL, lastV_append]
      have hYX : faceEdges ((y :: yt) ++ (x :: xt)) =
          (pathEdges (y :: yt) ++ edgeKey (lastV y yt) x :: pathEdges (x :: xt)) ++
            [edgeKey (lastV x xt) y] := by
        have h1 : (y :: yt) ++ (x :: xt) = y :: (yt ++ x :: xt) := rfl
        rw [h1, faceEdges_general _ (by simp only [List.length_cons, List.length_append]; omega),
          pathEdges_append_cons]
        simp [lastL, lastV_append]
      rw [hXY, hYX, List.perm_iff_count]
      intro a
      simp only [List.count_append, List.count_cons]
      omega

/-- Reversing a chain permutes its edge list. -/
theorem pathEdges_reverse : ∀ (l : List Nat),
    (pathEdges l.reverse).Perm (pathEdges l) := by
  intro l
  induction l with
  | nil => simp [pathEdges]
  | cons a t ih =>
    cases t with
    | nil => simp [pathEdges]
    | cons b t' =>
      rw [List.reverse_cons]
      cases hrev : (b :: t').reverse with
      | nil => simp at hrev
      | cons x xs =>
        have hx : lastV x xs = b := by
          have := lastL_reverse b t'
          rw [hrev] at this
          simpa [lastL] using this
        rw [List.cons_append, pathEdges_snoc, hx]
        have h2 : (pathEdges ((b :: t').reverse)).Perm (pathEdges (b :: t')) := ih
        rw [hrev] at h2
        have h3 : (pathEdges (x :: xs) ++ [edgeKey b a]).Perm
            (pathEdges (b :: t') ++ [edgeKey b a]) := h2.append_right _
        have h4 : (pathEdges (b :: t') ++ [edgeKey b a]).Perm
            (edgeKey b a :: pathEdges (b :: t')) := List.perm_append_singleton _ _
        have h5 : pathEdges (a :: b :: t') = edgeKey a b :: pathEdges (b :: t') := rfl
        rw [h5, edgeKey_comm a b]
        exact h3.trans h4

/-- Reversing a loop permutes its edge list. -/
theorem faceEdges_reverse (l : List Nat) :
    (faceEdges l.reverse).Perm (faceEdges l) := by
  cases l with
  | nil => simp [faceEdges]
  | cons c p =>
    cases p with
    | nil => simp [faceEdges]
    | cons b t =>
      have h2 : 2 ≤ ((c :: b :: t).reverse).length := by simp
      rw [faceEdges_general _ h2, faceEdges_general _ (by simp)]
      have hl : lastL ((c :: b :: t).reverse) = c := lastL_reverse c (b :: t)
      have hh : ((c :: b :: t).reverse).headD 0 = lastL (c :: b :: t) :=
        headD_reverse (b :: t) c
      rw [hl, hh]
      simp only [List.headD]
      rw [edgeKey_comm c (lastL (c :: b :: t))]
      exact (pathEdges_reverse (c :: b :: t)).append_right _

/-- Any edge of a loop can be brought to the front, in the orientation
matching the edge's normalised endpoints, by a rotation and possibly a
reflection; both preserve the loop's vertex multiset and edge multiset. -/
theorem loop_reorient (L : List Nat) (e : Nat × Nat)
    (hL : 3 ≤ L.length) (he : e ∈ faceEdges L) :
    ∃ A : List Nat, (e.1 :: e.2 :: A).Perm L ∧
      (faceEdges (e.1 :: e.2 :: A)).Perm (faceEdges L) := by
  -- first bring the edge to the front, ignoring orientation
  have step1 : ∃ u v A, e = edgeKey u v ∧ (u :: v :: A).Perm L ∧
      (faceEdges (u :: v :: A)).Perm (faceEdges L) := by
    match L, hL with
    | a :: b :: t, _ =>
      rw [faceEdges_cons_cons] at he
      rcases List.mem_cons.mp he with rfl | h
      · exact ⟨a, b, t, rfl, List.Perm.refl _, List.Perm.refl _⟩
      · obtain ⟨P, u, v, Q, hsplit, hk⟩ := pathEdges_mem_split _ e h
        refine ⟨u, v, Q ++ P, hk, ?_, ?_⟩
        · have hperm1 : (u :: v :: (Q ++ P)).Perm ((u :: v :: Q) ++ P) := by
            simp only [List.cons_append]
            exact List.Perm.refl _
          have hperm2 : ((u :: v :: Q) ++ P).Perm (P ++ u :: v :: Q) :=
            List.perm_append_comm
          have hperm3 : (P ++ u :: v :: Q).Perm (a :: b :: t) := by
            rw [← hsplit]
            exact List.perm_append_singleton a (b :: t)
          exact (hperm1.trans hperm2).trans hperm3
        · have hperm1 : (faceEdges (u :: v :: (Q ++ P))).Perm
              (faceEdges (P ++ u :: v :: Q)) := by
            have := faceEdges_rotate (u :: v :: Q) P
            simpa using this
          have hperm2 : (faceEdges (P ++ u :: v :: Q)).Perm (faceEdges (a :: b :: t)) := by
            rw [← hsplit]
            have h3 : b :: (t ++ [a]) = (b :: t) ++ [a] := rfl
            have h4 : a :: b :: t = [a] ++ (b :: t) := rfl
            rw [h3, h4]
            exact faceEdges_rotate (b :: t) [a]
          exact hperm1.trans hperm2
  obtain ⟨u, v, A, hk, hpL, hpE⟩ := step1
  rcases edgeKey_eq_or u v with hor | hor
  · -- e = (u, v): already oriented
    refine ⟨A, ?_, ?_⟩
    · have h1 : e.1 = u := by rw [hk, hor]
      have h2 : e.2 = v := by rw [hk, hor]
      rw [h1, h2]; exact hpL
    · have h1 : e.1 = u := by rw [hk, hor]
      have h2 : e.2 = v := by rw [hk, hor]
      rw [h1, h2]; exact hpE
  · -- e = (v, u): reflect the loop
    have h1 : e.1 = v := by rw [hk, hor]
    have h2 : e.2 = u := by rw [hk, hor]
    refine ⟨A.reverse, ?_, ?_⟩
    · rw [h1, h2]
      have hrev : (v :: u :: A.reverse).Perm (v :: u :: A) :=
        ((A.reverse_perm).cons u).cons v
      have hswap : (v :: u :: A).Perm (u :: v :: A) := List.Perm.swap u v A
      exact (hrev.trans hswap).trans hpL
    · rw [h1, h2]
      have hsh : (u :: v :: A).reverse = A.reverse ++ [v, u] := by simp
      have hstep : (faceEdges (v :: u :: A.reverse)).Perm
          (faceEdges (A.reverse ++ [v, u])) := by
        have h3 : v :: u :: A.reverse = [v, u] ++ A.reverse := rfl
        rw [h3]
        exact faceEdges_rotate [v, u] A.reverse
      have hstep2 : (faceEdges (A.reverse ++ [v, u])).Perm (faceEdges (u :: v :: A)) := by
        rw [← hsh]
        exact faceEdges_reverse (u :: v :: A)
      exact (hstep.trans hstep2).trans hpE

/-! ### Walker completeness on a single simple loop -/

theorem edgeIncB_edgeKey_left (c w : Nat) : edgeIncB c (edgeKey c w) = true := by
  rcases edgeKey_eq_or c w with h | h <;> rw [h] <;> simp [edgeIncB]

theorem edgeIncB_edgeKey_iff (c u v : Nat) :
    edgeIncB c (edgeKey u v) = true ↔ (c = u ∨ c = v) := by
  rcases edgeKey_eq_or u v with h | h <;> rw [h] <;> simp [edgeIncB] <;> omega

theorem otherEnd_edgeKey {c w : Nat} (h : c ≠ w) :
    otherEnd c (edgeKey c w) = w := by
  rcases edgeKey_eq_or c w with he | he
  · rw [he]; simp [otherEnd]
  · rw [he]; simp [otherEnd, Ne.symm h]

theorem find?_unique {α : Type} (p : α → Bool) :
    ∀ (l : List α) (x : α), x ∈ l → p x = true →
      (∀ y ∈ l, p y = true → y = x) → l.find? p = some x := by
  intro l
  induction l with
  | nil => intro x hx _ _; simp at hx
  | cons a t ih =>
    intro x hx hpx huniq
    by_cases hpa : p a = true
    · have ha : a = x := huniq a (List.mem_cons_self a t) hpa
      rw [List.find?_cons_of_pos _ hpa, ha]
    · rw [List.find?_cons_of_neg _ (by simpa using hpa)]
      have hxt : x ∈ t := by
        rcases List.mem_cons.mp hx with rfl | h
        · exact absurd hpx hpa
        · exact h
      exact ih x hxt hpx (fun y hy hpy => huniq y (List.mem_cons_of_mem a hy) hpy)

/-- Completeness of the loop walker: when the unused edges form exactly the
chain continuing the walk through the arc `A` and closing back to `s`, the
walk is forced, consumes every edge, and returns the full loop. -/
theorem walkLoop_complete :
    ∀ (A : List Nat) (fuel : Nat) (s c : Nat) (p : List Nat) (rem : List (Nat × Nat)),
      A.length < fuel →
      rem.Perm (pathEdges (c :: (A ++ [s]))) →
      (c :: (A ++ [s])).Nodup →
      (∀ x ∈ A, x ∉ c :: p) →
      3 ≤ (c :: p).length + A.length →
      walkLoop fuel s (c :: p) rem = some ((c :: p).reverse ++ A, []) := by
  intro A
  induction A with
  | nil =>
    intro fuel s c p rem hfuel hrem hnd hdisj hlen
    have hpe : pathEdges (c :: ([] ++ [s])) = [edgeKey c s] := by simp [pathEdges]
    rw [hpe] at hrem
    have hrs : rem = [edgeKey c s] := List.perm_singleton.mp hrem
    obtain ⟨f, rfl⟩ : ∃ f, fuel = f + 1 := ⟨fuel - 1, by omega⟩
    have hcs : c ≠ s := by
      have := List.nodup_cons.mp hnd
      simpa using this.1
    rw [hrs]
    simp only [walkLoop, List.find?_cons_of_pos _ (edgeIncB_edgeKey_left c s)]
    rw [otherEnd_edgeKey hcs]
    rw [if_pos rfl, if_pos (by simpa using hlen)]
    simp [eraseFirst]
  | cons w A' ih =>
    intro fuel s c p rem hfuel hrem hnd hdisj hlen
    obtain ⟨f, rfl⟩ : ∃ f, fuel = f + 1 := ⟨fuel - 1, by omega⟩
    have hchain : pathEdges (c :: ((w :: A') ++ [s])) =
        edgeKey c w :: pathEdges (w :: (A' ++ [s])) := by simp [pathEdges]
    rw [hchain] at hrem
    obtain ⟨hcnot, hndtail⟩ := List.nodup_cons.mp hnd
    have hcw : c ≠ w := by intro hc; exact hcnot (by simp [hc])
    have hwnot : w ∉ A' ++ [s] := (List.nodup_cons.mp hndtail).1
    have hws : w ≠ s := by intro hc; exact hwnot (by simp [hc])
    have hfind : rem.find? (edgeIncB c) = some (edgeKey c w) := by
      apply find?_unique
      · exact hrem.mem_iff.mpr (by simp)
      · exact edgeIncB_edgeKey_left c w
      · intro y hy hpy
        have hy' : y ∈ edgeKey c w :: pathEdges (w :: (A' ++ [s])) := hrem.subset hy
        rcases List.mem_cons.mp hy' with rfl | hy''
        · rfl
        · exfalso
          obtain ⟨u, v, rfl, hu, hv⟩ := pathEdges_mem_endpoints _ y hy''
          rcases (edgeIncB_edgeKey_iff c u v).mp hpy with rfl | rfl
          · exact hcnot hu
          · exact hcnot hv
    simp only [walkLoop, hfind]
    rw [otherEnd_edgeKey hcw]
    rw [if_neg hws]
    rw [if_neg (hdisj w (by simp))]
    have herase : (eraseFirst rem (edgeKey c w)).Perm (pathEdges (w :: (A' ++ [s]))) :=
      eraseFirst_perm_of_perm_cons hrem
    have hrec := ih f s w (c :: p) (eraseFirst rem (edgeKey c w))
      (by simp at hfuel ⊢; omega)
      herase
      hndtail
      (by
        intro x hx
        have hxw : x ≠ w := by
          intro hc
          exact hwnot (by simp [← hc, hx])
        have hxcp : x ∉ c :: p := hdisj x (List.mem_cons_of_mem w hx)
        simp only [List.mem_cons] at hxcp ⊢
        tauto)
      (by simp at hlen ⊢; omega)
    rw [hrec]
    simp

theorem extractLoopsAux_nil (fuel : Nat) : extractLoopsAux fuel [] = [] := by
  cases fuel <;> rfl

theorem fix_holes_passes_of_zero (n : Nat) (faces : List (List Nat))
    (h : boundaryCount faces = 0) : fix_holes_passes n faces = faces := by
  cases n with
  | zero => rfl
  | succ m => simp [fix_holes_passes, h]

/-- When the boundary edges form exactly one simple loop, a single fill
pass closes it completely. -/
theorem fillPass_closes_single_loop (faces : List (List Nat)) (L : List Nat)
    (hnd : L.Nodup) (hlen : 3 ≤ L.length)
    (hB : (boundaryList faces).Perm (faceEdges L)) :
    boundaryList (fillPass faces) = [] := by
  have hlenB : (boundaryList faces).length = L.length := by
    rw [hB.length_eq]
    match L, hlen with
    | a :: b :: t, _ => rw [faceEdges_length]; simp
  cases hBs : boundaryList faces with
  | nil => rw [hBs] at hlenB; simp at hlenB; omega
  | cons e rest =>
    have heB : e ∈ boundaryList faces := by rw [hBs]; simp
    have heL : e ∈ faceEdges L := hB.subset heB
    obtain ⟨A, hpL, hpE⟩ := loop_reorient L e hlen heL
    have hndL' : (e.1 :: e.2 :: A).Nodup := hpL.nodup_iff.mpr hnd
    have hlenL' : (e.1 :: e.2 :: A).length = L.length := hpL.length_eq
    have hlenA : L.length = A.length + 2 := by rw [← hlenL']; simp
    have hnorm : e.1 ≤ e.2 := boundaryList_normalized faces e heB
    have hek : edgeKey e.1 e.2 = e := edgeKey_of_le hnorm
    have hfe : faceEdges (e.1 :: e.2 :: A) = e :: pathEdges (e.2 :: (A ++ [e.1])) := by
      rw [faceEdges_cons_cons, hek]
    have hrest : rest.Perm (pathEdges (e.2 :: (A ++ [e.1]))) := by
      have h1 : (e :: rest).Perm (e :: pathEdges (e.2 :: (A ++ [e.1]))) := by
        rw [← hfe]
        exact (hBs ▸ hB).trans hpE.symm
      exact h1.cons_inv
    have hndchain : (e.2 :: (A ++ [e.1])).Nodup := by
      have hperm : (e.2 :: (A ++ [e.1])).Perm (e.1 :: e.2 :: A) := by
        have h1 : (A ++ [e.1]).Perm (e.1 :: A) := List.perm_append_singleton e.1 A
        exact (h1.cons e.2).trans (List.Perm.swap e.1 e.2 A)
      exact hperm.nodup_iff.mpr hndL'
    have hn1 := List.nodup_cons.mp hndL'
    have hn2 := List.nodup_cons.mp hn1.2
    have hwalk := walkLoop_complete A (e :: rest).length e.1 e.2 [e.1] rest
      (by rw [hBs] at hlenB; simp only [List.length_cons] at hlenB ⊢; omega)
      hrest hndchain
      (by
        intro x hx hc
        simp only [List.mem_cons, List.not_mem_nil, or_false] at hc
        rcases hc with rfl | rfl
        · exact hn2.1 hx
        · exact hn1.1 (List.mem_cons_of_mem e.2 hx))
      (by simp only [List.length_cons, List.length_nil]; omega)
    have hwalkres : walkLoop (e :: rest).length e.1 [e.2, e.1] rest =
        some (e.1 :: e.2 :: A, []) := by
      simpa using hwalk
    have hext : extractLoops (boundaryList faces) = [e.1 :: e.2 :: A] := by
      rw [hBs]
      unfold extractLoops
      simp only [List.length_cons] at hwalkres
      simp only [List.length_cons, extractLoopsAux, hwalkres, extractLoopsAux_nil]
    have hfill : fillPass faces = faces ++ closeLoop (e.1 :: e.2 :: A) := by
      unfold fillPass
      rw [hext]
      simp
    rw [List.eq_nil_iff_forall_not_mem]
    intro x hx
    have hxold : x ∈ boundaryList faces := fillPass_boundary_subset faces hx
    have hxL : x ∈ faceEdges L := hB.subset hxold
    have hxL' : x ∈ faceEdges (e.1 :: e.2 :: A) := hpE.mem_iff.mpr hxL
    have hxnew : x ∈ allEdges (closeLoop (e.1 :: e.2 :: A)) :=
      faceEdges_subset_closeLoop _ (by simp only [List.length_cons]; omega) hxL'
    have hc1 : edgeCount faces x = 1 := mem_boundaryList_iff.mp hxold
    have hcafter : edgeCount (fillPass faces) x = 1 := mem_boundaryList_iff.mp hx
    have hsplit : edgeCount (fillPass faces) x =
        edgeCount faces x + (allEdges (closeLoop (e.1 :: e.2 :: A))).count x := by
      rw [hfill]
      unfold edgeCount
      rw [allEdges_append, List.count_append]
    have hpos : 0 < (allEdges (closeLoop (e.1 :: e.2 :: A))).count x :=
      List.count_pos_iff.mpr hxnew
    omega

/-- For a mesh whose boundary is a single simple loop, three passes close
every hole and report zero remaining boundary edges. -/
theorem fix_holes_aggressive_single_hole (faces : List (List Nat)) (L : List Nat)
    (hnd : L.Nodup) (hlen : 3 ≤ L.length)
    (hB : (boundaryList faces).Perm (faceEdges L)) :
    (fix_holes_aggressive faces).2 = 0 := by
  have hne : boundaryCount faces ≠ 0 := by
    unfold boundaryCount
    rw [hB.length_eq]
    match L, hlen with
    | a :: b :: t, _ => rw [faceEdges_length]; omega
  have hzero : boundaryCount (fillPass faces) = 0 := by
    unfold boundaryCount
    rw [fillPass_closes_single_loop faces L hnd hlen hB]
    rfl
  unfold fix_holes_aggressive
  simp only [fix_holes_passes, if_neg hne, if_pos hzero]
  exact hzero

/-- Claim C1: across the successive passes of the hole-filling loop of
`fix_holes_aggressive` (at most `maxPasses = 3`), the boundary-edge count is
non-increasing from one pass's scan to the next; the loop stops as soon as a
scan finds zero boundary edges (returning the mesh unchanged); and for a mesh
whose only defect is a single simple hole — its boundary edges form exactly
the edge set of one loop of at least three distinct vertices — the remaining
boundary-edge count reaches 0 within `maxPasses`. -/
theorem fix_holes_aggressive_monotone_stops_closes :
    (∀ faces : List (List Nat),
      boundaryCount (fillPass faces) ≤ boundaryCount faces) ∧
    (∀ (n : Nat) (faces : List (List Nat)), boundaryCount faces = 0 →
      fix_holes_passes n faces = faces ∧ (fix_holes_aggressive faces).2 = 0) ∧
    (∀ (faces : List (List Nat)) (L : List Nat), L.Nodup → 3 ≤ L.length →
      (boundaryList faces).Perm (faceEdges L) →
      (fix_holes_aggressive faces).2 = 0) := by
  refine ⟨fillPass_boundaryCount_le, ?_, fix_holes_aggressive_single_hole⟩
  intro n faces h
  have hstop := fix_holes_passes_of_zero n faces h
  refine ⟨hstop, ?_⟩
  unfold fix_holes_aggressive
  simp only [fix_holes_passes_of_zero 3 faces h]
  exact h

/-- Witness for C1: a lone quad (single square hole) is closed to zero
remaining boundary edges, and a closed tetrahedron stops immediately. -/
theorem fix_holes_aggressive_monotone_stops_closes_witness :
    (fix_holes_aggressive [[0, 1, 2, 3]]).2 = 0 ∧
    fix_holes_passes 3 [[0, 1, 2], [0, 2, 3], [0, 3, 1], [1, 3, 2]] =
      [[0, 1, 2], [0, 2, 3], [0, 3, 1], [1, 3, 2]] :=
  ⟨fix_holes_aggressive_monotone_stops_closes.2.2 [[0, 1, 2, 3]] [0, 1, 2, 3]
      (by decide) (by decide) (by decide),
    (fix_holes_aggressive_monotone_stops_closes.2.1 3
      [[0, 1, 2], [0, 2, 3], [0, 3, 1], [1, 3, 2]] (by decide)).1⟩

/-! ## Geometry data model

Vertex positions are rational 3-vectors; all coordinates are world-space
(`matrix_world` modelled as the identity). -/

structure Vec3 where
  x : ℚ
  y : ℚ
  z : ℚ
deriving DecidableEq, Repr

instance : Inhabited Vec3 := ⟨⟨0, 0, 0⟩⟩

/-- A mesh as the Topology Analyzer sees it: vertex positions and faces as
vertex-index loops. -/
structure Mesh where
  verts : List Vec3
  faces : List (List Nat)
deriving DecidableEq, Repr

/-! ## Vertex welding

Modelled from the spec: `weldVertices(mesh, epsilon) -> mergedCount` (§4.2)
"merges any two vertices whose positions differ by at most `epsilon` in each
coordinate into a single vertex, remapping all face indices and dropping
now-degenerate faces (fewer than 3 distinct vertices after remap)".  The
underlying host operator is `bpy.ops.mesh.remove_doubles`, whose body is not
part of the repository.  Merging is computed as the fixpoint of minimum-label
propagation along the within-epsilon relation, so any two near vertices end
in the same surviving vertex; each surviving vertex is the least-index member
of its merge class and keeps its position. -/

/-- The spec's merge test: positions differ by at most epsilon in each
coordinate. -/
def nearB (eps : ℚ) (p q : Vec3) : Bool :=
  decide (|p.x - q.x| ≤ eps) && decide (|p.y - q.y| ≤ eps) &&
    decide (|p.z - q.z| ≤ eps)

/-- The merge test lifted to vertex indices of a vertex list. -/
def nearIdx (vs : List Vec3) (eps : ℚ) (i j : Nat) : Bool :=
  nearB eps (vs.getD i default) (vs.getD j default)

/-- One label-propagation value: the minimum label over the within-epsilon
neighbourhood of vertex `i` (including its own current label). -/
def passStep (vs : List Vec3) (eps : ℚ) (l : List Nat) (i : Nat) : Nat :=
  (List.range vs.length).foldl
    (fun acc j => if nearIdx vs eps i j then min acc (l.getD j 0) else acc)
    (l.getD i 0)

/-- One full label-propagation pass. -/
def weldPass (vs : List Vec3) (eps : ℚ) (l : List Nat) : List Nat :=
  (List.range vs.length).map (passStep vs eps l)

/-- The merge labels: iterate propagation until the (provably reached)
fixpoint; vertices with equal labels are merged. -/
def weldLabels (vs : List Vec3) (eps : ℚ) : List Nat :=
  (weldPass vs eps)^[vs.length * vs.length + 1] (List.range vs.length)

/-- Position of the first occurrence of `v`. -/
def posIn : List Nat → Nat → Nat
  | [], _ => 0
  | a :: t, v => if a = v then 0 else posIn t v + 1

/-- The surviving vertex indices: the least-index member of each merge
class, in index order. -/
def keptIdx (vs : List Vec3) (eps : ℚ) : List Nat :=
  (List.range vs.length).filter (fun i => (weldLabels vs eps).getD i 0 == i)

/-- Remap an old vertex index to the renumbered index of its merge class's
surviving vertex. -/
def remapIdx (vs : List Vec3) (eps : ℚ) (v : Nat) : Nat :=
  posIn (keptIdx vs eps) ((weldLabels vs eps).getD v 0)

/-- Weld a mesh: keep one vertex per merge class, remap all face indices to
the surviving vertices, drop degenerate faces, report the merged count. -/
def weldVertices (m : Mesh) (eps : ℚ) : Mesh × Nat :=
  (⟨(keptIdx m.verts eps).map (fun i => m.verts.getD i default),
    (m.faces.map (fun f => f.map (remapIdx m.verts eps))).filter
      (fun f => 3 ≤ f.dedup.length)⟩,
   m.verts.length - (keptIdx m.verts eps).length)

/-! ### Generic fixpoint iteration -/

theorem iterate_fixed {α : Type} (f : α → α) (a : α) (h : f a = a) :
    ∀ k, f^[k] a = a := by
  intro k
  induction k with
  | zero => rfl
  | succ k ih => rw [Function.iterate_succ_apply, h]; exact ih

theorem iterate_reaches_fixpoint {α : Type} (f : α → α) (m : α → Nat)
    (Inv : α → Prop) (hInv : ∀ a, Inv a → Inv (f a))
    (hm : ∀ a, Inv a → f a ≠ a → m (f a) < m a) :
    ∀ (k : Nat) (a : α), Inv a → m a ≤ k → f (f^[k] a) = f^[k] a := by
  intro k
  induction k with
  | zero =>
    intro a ha hma
    by_cases hfa : f a = a
    · rw [iterate_fixed f a hfa]; exact hfa
    · have := hm a ha hfa; omega
  | succ k ih =>
    intro a ha hma
    by_cases hfa : f a = a
    · rw [iterate_fixed f a hfa]; exact hfa
    · have h1 := hm a ha hfa
      rw [Function.iterate_succ_apply]
      exact ih (f a) (hInv a ha) (by omega)

theorem iterate_preserves {α : Type} (f : α → α) (Inv : α → Prop)
    (hInv : ∀ a, Inv a → Inv (f a)) :
    ∀ (k : Nat) (a : α), Inv a → Inv (f^[k] a) := by
  intro k
  induction k with
  | zero => intro a ha; exact ha
  | succ k ih =>
    intro a ha
    rw [Function.iterate_succ_apply]
    exact ih (f a) (hInv a ha)

/-! ### List access helpers -/

theorem getD_map_range (n i : Nat) (f : Nat → Nat) (d : Nat) (h : i < n) :
    ((List.range n).map f).getD i d = f i := by
  rw [List.getD_eq_getElem?_getD, List.getElem?_map, List.getElem?_range h]
  rfl

theorem getD_range (n i : Nat) (d : Nat) (h : i < n) :
    (List.range n).getD i d = i := by
  rw [List.getD_eq_getElem?_getD, List.getElem?_range h]
  rfl

theorem getD_map_lt {α β : Type} (f : α → β) (l : List α) (i : Nat)
    (h : i < l.length) (d : β) (d' : α) :
    (l.map f).getD i d = f (l.getD i d') := by
  rw [List.getD_eq_getElem?_getD, List.getElem?_map,
    List.getElem?_eq_getElem h, List.getD_eq_getElem l d' h]
  rfl

theorem getD_mem_of_lt {l : List Nat} {i : Nat} (h : i < l.length) (d : Nat) :
    l.getD i d ∈ l := by
  rw [List.getD_eq_getElem l d h]
  exact List.getElem_mem h

theorem map_range_getD {α : Type} (l : List α) (d : α) :
    (List.range l.length).map (fun i => l.getD i d) = l := by
  induction l with
  | nil => rfl
  | cons a t ih =>
    have hr : List.range (t.length + 1) = 0 :: (List.range t.length).map (· + 1) :=
      List.range_succ_eq_map t.length
    simp only [List.length_cons, hr, List.map_cons, List.map_map]
    have hcomp : ((fun i => (a :: t).getD i d) ∘ fun x => x + 1) =
        fun i => t.getD i d := by
      funext i
      simp [List.getD_cons_succ]
    rw [hcomp, ih, List.getD_cons_zero]

theorem posIn_lt_length : ∀ (l : List Nat) (v : Nat), v ∈ l → posIn l v < l.length := by
  intro l
  induction l with
  | nil => intro v hv; simp at hv
  | cons a t ih =>
    intro v hv
    simp only [posIn]
    split
    · simp
    · rcases List.mem_cons.mp hv with rfl | hv'
      · simp_all
      · have := ih v hv'
        simp only [List.length_cons]
        omega

theorem posIn_range' : ∀ (n s v : Nat), v < n → posIn (List.range' s n) (s + v) = v := by
  intro n
  induction n with
  | zero => intro s v hv; omega
  | succ n ih =>
    intro s v hv
    rw [List.range'_succ s n 1]
    cases v with
    | zero => simp [posIn]
    | succ w =>
      have hne : ¬ (s = s + (w + 1)) := by omega
      simp only [posIn, if_neg hne]
      have hw : s + (w + 1) = (s + 1) + w := by omega
      rw [hw, ih (s + 1) w (by omega)]

theorem posIn_range (n v : Nat) (h : v < n) : posIn (List.range n) v = v := by
  rw [List.range_eq_range' n]
  simpa using posIn_range' n 0 v h

/-! ### Minimum-fold lemmas -/

theorem foldl_min_le_init (g : Nat → Nat) (P : Nat → Bool) :
    ∀ (js : List Nat) (a : Nat),
      js.foldl (fun acc j => if P j then min acc (g j) else acc) a ≤ a := by
  intro js
  induction js with
  | nil => intro a; exact Nat.le_refl a
  | cons j t ih =>
    intro a
    simp only [List.foldl_cons]
    refine Nat.le_trans (ih _) ?_
    split
    · exact Nat.min_le_left _ _
    · exact Nat.le_refl a

theorem foldl_min_le_mem (g : Nat → Nat) (P : Nat → Bool) :
    ∀ (js : List Nat) (a j : Nat), j ∈ js → P j = true →
      js.foldl (fun acc j => if P j then min acc (g j) else acc) a ≤ g j := by
  intro js
  induction js with
  | nil => intro a j hj; simp at hj
  | cons j' t ih =>
    intro a j hj hPj
    simp only [List.foldl_cons]
    rcases List.mem_cons.mp hj with rfl | hj'
    · refine Nat.le_trans (foldl_min_le_init g P t _) ?_
      rw [if_pos hPj]
      exact Nat.min_le_right _ _
    · exact ih _ j hj' hPj

theorem foldl_min_cases (g : Nat → Nat) (P : Nat → Bool) :
    ∀ (js : List Nat) (a : Nat),
      js.foldl (fun acc j => if P j then min acc (g j) else acc) a = a ∨
      ∃ j ∈ js, P j = true ∧
        js.foldl (fun acc j => if P j then min acc (g j) else acc) a = g j := by
  intro js
  induction js with
  | nil => intro a; left; rfl
  | cons j' t ih =>
    intro a
    simp only [List.foldl_cons]
    by_cases hP : P j' = true
    · rw [if_pos hP]
      rcases ih (min a (g j')) with h | ⟨j, hj, hPj, hval⟩
      · rcases Nat.le_total a (g j') with hle | hle
        · left; rw [h, Nat.min_eq_left hle]
        · right
          exact ⟨j', List.mem_cons_self _ _, hP, by rw [h, Nat.min_eq_right hle]⟩
      · right; exact ⟨j, List.mem_cons_of_mem _ hj, hPj, hval⟩
    · rw [if_neg hP]
      rcases ih a with h | ⟨j, hj, hPj, hval⟩
      · left; exact h
      · right; exact ⟨j, List.mem_cons_of_mem _ hj, hPj, hval⟩

/-! ### Propagation reaches a fixpoint -/

theorem weldPass_length (vs : List Vec3) (eps : ℚ) (l : List Nat) :
    (weldPass vs eps l).length = vs.length := by
  simp [weldPass]

theorem weldPass_getD (vs : List Vec3) (eps : ℚ) (l : List Nat) (i : Nat)
    (h : i < vs.length) :
    (weldPass vs eps l).getD i 0 = passStep vs eps l i :=
  getD_map_range _ _ _ _ h

theorem passStep_le (vs : List Vec3) (eps : ℚ) (l : List Nat) (i : Nat) :
    passStep vs eps l i ≤ l.getD i 0 :=
  foldl_min_le_init _ _ _ _

theorem weldPass_getD_le (vs : List Vec3) (eps : ℚ) (l : List Nat) (i : Nat) :
    (weldPass vs eps l).getD i 0 ≤ l.getD i 0 := by
  by_cases h : i < vs.length
  · rw [weldPass_getD vs eps l i h]
    exact passStep_le vs eps l i
  · have : (weldPass vs eps l).length ≤ i := by
      rw [weldPass_length]; omega
    rw [List.getD_eq_default _ _ this]
    exact Nat.zero_le _

theorem sum_le_of_getD_le : ∀ (l' l : List Nat), l'.length = l.length →
    (∀ i, l'.getD i 0 ≤ l.getD i 0) → l'.sum ≤ l.sum := by
  intro l'
  induction l' with
  | nil => intro l _ _; simp
  | cons a' t' ih =>
    intro l h hle
    cases l with
    | nil => simp at h
    | cons a t =>
      simp only [List.sum_cons]
      have h0 := hle 0
      simp only [List.getD_cons_zero] at h0
      have ht : t'.sum ≤ t.sum :=
        ih t (by simpa using h) (fun i => by simpa [List.getD_cons_succ] using hle (i + 1))
      omega

theorem sum_lt_of_getD_le : ∀ (l' l : List Nat), l'.length = l.length →
    (∀ i, l'.getD i 0 ≤ l.getD i 0) → l' ≠ l → l'.sum < l.sum := by
  intro l'
  induction l' with
  | nil =>
    intro l h _ hne
    cases l with
    | nil => exact absurd rfl hne
    | cons a t => simp at h
  | cons a' t' ih =>
    intro l h hle hne
    cases l with
    | nil => simp at h
    | cons a t =>
      simp only [List.sum_cons]
      have h0 := hle 0
      simp only [List.getD_cons_zero] at h0
      have hlet : ∀ i, t'.getD i 0 ≤ t.getD i 0 :=
        fun i => by simpa [List.getD_cons_succ] using hle (i + 1)
      by_cases ha : a' = a
      · have htne : t' ≠ t := by
          intro hc
          exact hne (by rw [ha, hc])
        have := ih t (by simpa using h) hlet htne
        omega
      · have := sum_le_of_getD_le t' t (by simpa using h) hlet
        omega

theorem weldLabels_length (vs : List Vec3) (eps : ℚ) :
    (weldLabels vs eps).length = vs.length := by
  unfold weldLabels
  exact iterate_preserves (weldPass vs eps) (fun l => l.length = vs.length)
    (fun l _ => weldPass_length vs eps l)
    (vs.length * vs.length + 1) (List.range vs.length) (by simp)

theorem sum_range_le (n : Nat) : (List.range n).sum ≤ n * n := by
  induction n with
  | zero => simp
  | succ n ih =>
    have hr : List.range (n + 1) = List.range n ++ [n] := by
      simpa using List.range_succ n
    rw [hr, List.sum_append]
    have hsq : (n + 1) * (n + 1) = n * n + 2 * n + 1 := by ring
    simp only [List.sum_cons, List.sum_nil]
    omega

theorem weldPass_fixpoint (vs : List Vec3) (eps : ℚ) :
    weldPass vs eps (weldLabels vs eps) = weldLabels vs eps := by
  unfold weldLabels
  refine iterate_reaches_fixpoint (weldPass vs eps) (fun l => l.sum)
    (fun l => l.length = vs.length)
    (fun l _ => weldPass_length vs eps l)
    ?_ (vs.length * vs.length + 1) (List.range vs.length) (by simp) ?_
  · intro l hl hne
    exact sum_lt_of_getD_le _ _ (by rw [weldPass_length, hl])
      (weldPass_getD_le vs eps l) hne
  · show (List.range vs.length).sum ≤ vs.length * vs.length + 1
    have := sum_range_le vs.length
    omega

/-! ### Fixpoint labels are constant on merge classes -/

theorem nearB_symm (eps : ℚ) (p q : Vec3) : nearB eps p q = nearB eps q p := by
  simp [nearB, abs_sub_comm]

theorem nearIdx_symm (vs : List Vec3) (eps : ℚ) (i j : Nat) :
    nearIdx vs eps i j = nearIdx vs eps j i := by
  simp [nearIdx, nearB_symm]

theorem weldLabels_near_eq (vs : List Vec3) (eps : ℚ) (i j : Nat)
    (hi : i < vs.length) (hj : j < vs.length)
    (hnear : nearIdx vs eps i j = true) :
    (weldLabels vs eps).getD i 0 = (weldLabels vs eps).getD j 0 := by
  have key : ∀ a b, a < vs.length → b < vs.length → nearIdx vs eps a b = true →
      (weldLabels vs eps).getD a 0 ≤ (weldLabels vs eps).getD b 0 := by
    intro a b ha hb hab
    conv_lhs => rw [← weldPass_fixpoint vs eps]
    rw [weldPass_getD vs eps _ a ha]
    exact foldl_min_le_mem _ _ _ _ b (List.mem_range.mpr hb) hab
  exact Nat.le_antisymm (key i j hi hj hnear)
    (key j i hj hi (by rw [nearIdx_symm]; exact hnear))

/-- A propagation step between vertex indices. -/
def weldStep (vs : List Vec3) (eps : ℚ) (i j : Nat) : Prop :=
  i < vs.length ∧ j < vs.length ∧ nearIdx vs eps i j = true

theorem weldLabels_le_reach (vs : List Vec3) (eps : ℚ) (v : Nat)
    (hv : v < vs.length) :
    (weldLabels vs eps).getD v 0 ≤ v ∧
      Relation.ReflTransGen (weldStep vs eps) v ((weldLabels vs eps).getD v 0) := by
  unfold weldLabels
  refine iterate_preserves (weldPass vs eps)
    (fun l => ∀ w, w < vs.length → l.getD w 0 ≤ w ∧
      Relation.ReflTransGen (weldStep vs eps) w (l.getD w 0))
    ?_ (vs.length * vs.length + 1) (List.range vs.length) ?_ v hv
  · intro l hl w hw
    rw [weldPass_getD vs eps l w hw]
    constructor
    · exact Nat.le_trans (passStep_le vs eps l w) (hl w hw).1
    · unfold passStep
      rcases foldl_min_cases (fun j => l.getD j 0) (nearIdx vs eps w)
          (List.range vs.length) (l.getD w 0) with h | ⟨j, hj, hPj, hval⟩
      · rw [h]; exact (hl w hw).2
      · rw [hval]
        have hjlt : j < vs.length := List.mem_range.mp hj
        exact Relation.ReflTransGen.head ⟨hw, hjlt, hPj⟩ (hl j hjlt).2
  · intro w hw
    rw [getD_range _ _ _ hw]
    exact ⟨Nat.le_refl w, Relation.ReflTransGen.refl⟩

theorem reach_labels_eq (vs : List Vec3) (eps : ℚ) :
    ∀ a b, Relation.ReflTransGen (weldStep vs eps) a b →
      (weldLabels vs eps).getD a 0 = (weldLabels vs eps).getD b 0 := by
  intro a b h
  induction h with
  | refl => rfl
  | tail _ hbc ih =>
    exact ih.trans (weldLabels_near_eq vs eps _ _ hbc.1 hbc.2.1 hbc.2.2)

theorem weldLabels_root (vs : List Vec3) (eps : ℚ) (v : Nat) (hv : v < vs.length) :
    (weldLabels vs eps).getD ((weldLabels vs eps).getD v 0) 0 =
      (weldLabels vs eps).getD v 0 :=
  (reach_labels_eq vs eps v _ (weldLabels_le_reach vs eps v hv).2).symm

theorem mem_keptIdx_iff (vs : List Vec3) (eps : ℚ) (i : Nat) :
    i ∈ keptIdx vs eps ↔
      i < vs.length ∧ (weldLabels vs eps).getD i 0 = i := by
  simp [keptIdx, List.mem_filter, List.mem_range]

theorem keptIdx_nodup (vs : List Vec3) (eps : ℚ) : (keptIdx vs eps).Nodup :=
  (List.nodup_range vs.length).filter _

theorem weldLabels_mem_keptIdx (vs : List Vec3) (eps : ℚ) (v : Nat)
    (hv : v < vs.length) : (weldLabels vs eps).getD v 0 ∈ keptIdx vs eps := by
  rw [mem_keptIdx_iff]
  have h1 := (weldLabels_le_reach vs eps v hv).1
  exact ⟨by omega, weldLabels_root vs eps v hv⟩

/-! ### Idempotence of welding -/

theorem map_id_of_mem {α : Type} (l : List α) (f : α → α) (h : ∀ x ∈ l, f x = x) :
    l.map f = l := by
  induction l with
  | nil => rfl
  | cons a t ih =>
    simp only [List.map_cons]
    rw [h a (List.mem_cons_self a t), ih (fun x hx => h x (List.mem_cons_of_mem a hx))]

theorem dedup_const_length_le (l : List Nat) (c : Nat) (h : ∀ x ∈ l, x = c) :
    l.dedup.length ≤ 1 := by
  have hnd : l.dedup.Nodup := l.nodup_dedup
  have hall : ∀ x ∈ l.dedup, x = c := fun x hx => h x (List.mem_dedup.mp hx)
  cases hd : l.dedup with
  | nil => simp
  | cons a t =>
    cases t with
    | nil => simp
    | cons b t' =>
      exfalso
      rw [hd] at hnd hall
      have ha := hall a (List.mem_cons_self _ _)
      have hb := hall b (List.mem_cons_of_mem a (List.mem_cons_self _ _))
      have hne : a ∉ b :: t' := (List.nodup_cons.mp hnd).1
      exact hne (by rw [ha, hb]; exact List.mem_cons_self _ _)

/-- No two distinct surviving vertices are within epsilon of each other. -/
theorem newVerts_near_inj (vs : List Vec3) (eps : ℚ) (i j : Nat)
    (hi : i < (keptIdx vs eps).length) (hj : j < (keptIdx vs eps).length)
    (hnear : nearIdx ((keptIdx vs eps).map (fun k => vs.getD k default)) eps i j = true) :
    i = j := by
  have hmi : ((keptIdx vs eps).map (fun k => vs.getD k default)).getD i default =
      vs.getD ((keptIdx vs eps).getD i 0) default := getD_map_lt _ _ i hi default 0
  have hmj : ((keptIdx vs eps).map (fun k => vs.getD k default)).getD j default =
      vs.getD ((keptIdx vs eps).getD j 0) default := getD_map_lt _ _ j hj default 0
  have hnear' : nearIdx vs eps ((keptIdx vs eps).getD i 0) ((keptIdx vs eps).getD j 0) = true := by
    unfold nearIdx at hnear ⊢
    rw [hmi, hmj] at hnear
    exact hnear
  have hki := (mem_keptIdx_iff vs eps _).mp (getD_mem_of_lt hi 0)
  have hkj := (mem_keptIdx_iff vs eps _).mp (getD_mem_of_lt hj 0)
  have heq := weldLabels_near_eq vs eps _ _ hki.1 hkj.1 hnear'
  have hkeq : (keptIdx vs eps).getD i 0 = (keptIdx vs eps).getD j 0 := by
    rw [← hki.2, ← hkj.2]
    exact heq
  rw [List.getD_eq_getElem _ 0 hi, List.getD_eq_getElem _ 0 hj] at hkeq
  exact (List.Nodup.getElem_inj_iff (keptIdx_nodup vs eps)).mp hkeq

/-- When no two distinct vertices are near, the identity labelling is
already a fixpoint of propagation. -/
theorem weldPass_range_fix (ws : List Vec3) (eps : ℚ)
    (hinj : ∀ i j, i < ws.length → j < ws.length → nearIdx ws eps i j = true → i = j) :
    weldPass ws eps (List.range ws.length) = List.range ws.length := by
  apply List.ext_getElem
  · rw [weldPass_length]; simp
  · intro i h1 h2
    have hi : i < ws.length := by rw [weldPass_length] at h1; exact h1
    have hL : (weldPass ws eps (List.range ws.length))[i] =
        (weldPass ws eps (List.range ws.length)).getD i 0 :=
      (List.getD_eq_getElem _ 0 h1).symm
    rw [hL, weldPass_getD ws eps _ i hi]
    unfold passStep
    rcases foldl_min_cases (fun j => (List.range ws.length).getD j 0) (nearIdx ws eps i)
        (List.range ws.length) ((List.range ws.length).getD i 0) with h | ⟨j, hj, hPj, hval⟩
    · rw [h, getD_range _ _ _ hi]
      exact (List.getElem_range i h2).symm
    · rw [hval]
      have hjlt : j < ws.length := List.mem_range.mp hj
      have hij := hinj i j hi hjlt hPj
      rw [getD_range _ _ _ hjlt, ← hij]
      exact (List.getElem_range i h2).symm

theorem weldLabels_range_of_inj (ws : List Vec3) (eps : ℚ)
    (hinj : ∀ i j, i < ws.length → j < ws.length → nearIdx ws eps i j = true → i = j) :
    weldLabels ws eps = List.range ws.length := by
  unfold weldLabels
  exact iterate_fixed _ _ (weldPass_range_fix ws eps hinj) _

theorem keptIdx_of_inj (ws : List Vec3) (eps : ℚ)
    (hinj : ∀ i j, i < ws.length → j < ws.length → nearIdx ws eps i j = true → i = j) :
    keptIdx ws eps = List.range ws.length := by
  unfold keptIdx
  rw [weldLabels_range_of_inj ws eps hinj]
  apply List.filter_eq_self.mpr
  intro i hi
  rw [getD_range _ _ _ (List.mem_range.mp hi)]
  simp

/-- Every face index of a welded mesh references a surviving vertex. -/
theorem weldVertices_face_lt (m : Mesh) (eps : ℚ) :
    ∀ f ∈ (weldVertices m eps).1.faces, ∀ v ∈ f,
      v < (weldVertices m eps).1.verts.length := by
  intro f hf v hv
  simp only [weldVertices] at hf ⊢
  have hf1 : f ∈ m.faces.map (fun f => f.map (remapIdx m.verts eps)) :=
    List.mem_of_mem_filter hf
  have hded : 3 ≤ f.dedup.length := by
    have := List.of_mem_filter hf
    simpa using this
  obtain ⟨f0, hf0, rfl⟩ := List.mem_map.mp hf1
  obtain ⟨w, hw, rfl⟩ := List.mem_map.mp hv
  rw [List.length_map]
  rcases Nat.eq_zero_or_pos m.verts.length with hn | hn
  · exfalso
    have hzero : ∀ u, remapIdx m.verts eps u = 0 := by
      intro u
      unfold remapIdx keptIdx
      rw [hn]
      simp [posIn]
    have hconst : ∀ x ∈ f0.map (remapIdx m.verts eps), x = 0 := by
      intro x hx
      obtain ⟨u, _, rfl⟩ := List.mem_map.mp hx
      exact hzero u
    have := dedup_const_length_le _ 0 hconst
    omega
  · unfold remapIdx
    have hmem : (weldLabels m.verts eps).getD w 0 ∈ keptIdx m.verts eps := by
      by_cases hw' : w < m.verts.length
      · exact weldLabels_mem_keptIdx m.verts eps w hw'
      · have hlen : (weldLabels m.verts eps).length ≤ w := by
          rw [weldLabels_length]; omega
        rw [List.getD_eq_default _ _ hlen]
        have h0 : (weldLabels m.verts eps).getD 0 0 = 0 :=
          Nat.le_zero.mp (weldLabels_le_reach m.verts eps 0 hn).1
        rw [← h0]
        exact weldLabels_mem_keptIdx m.verts eps 0 hn
    exact posIn_lt_length _ _ hmem

/-- Every face of a welded mesh has at least three distinct vertices. -/
theorem weldVertices_faces_dedup (m : Mesh) (eps : ℚ) :
    ∀ f ∈ (weldVertices m eps).1.faces, 3 ≤ f.dedup.length := by
  intro f hf
  simp only [weldVertices] at hf
  have := List.of_mem_filter hf
  simpa using this

/-- Claim C2: vertex welding is idempotent.  For every mesh and every
epsilon at least 0, welding the already-welded mesh merges zero additional
vertices and acts as the identity on vertices and faces. -/
theorem weldVertices_idempotent (m : Mesh) (eps : ℚ) (_heps : 0 ≤ eps) :
    weldVertices (weldVertices m eps).1 eps = ((weldVertices m eps).1, 0) := by
  set M2 := (weldVertices m eps).1 with hM2
  have hM2verts : M2.verts = (keptIdx m.verts eps).map (fun i => m.verts.getD i default) := by
    rw [hM2]
    rfl
  have hinj : ∀ i j, i < M2.verts.length → j < M2.verts.length →
      nearIdx M2.verts eps i j = true → i = j := by
    intro i j hi hj hnear
    rw [hM2verts, List.length_map] at hi hj
    rw [hM2verts] at hnear
    exact newVerts_near_inj m.verts eps i j hi hj hnear
  have hlab : weldLabels M2.verts eps = List.range M2.verts.length :=
    weldLabels_range_of_inj _ _ hinj
  have hkept : keptIdx M2.verts eps = List.range M2.verts.length :=
    keptIdx_of_inj _ _ hinj
  have hverts2 : (keptIdx M2.verts eps).map (fun i => M2.verts.getD i default) = M2.verts := by
    rw [hkept]
    exact map_range_getD M2.verts default
  have hfaces2 : (M2.faces.map (fun f => f.map (remapIdx M2.verts eps))).filter
      (fun f => 3 ≤ f.dedup.length) = M2.faces := by
    have hmapid : M2.faces.map (fun f => f.map (remapIdx M2.verts eps)) = M2.faces := by
      apply map_id_of_mem
      intro f hf
      apply map_id_of_mem
      intro v hv
      have hvlt : v < M2.verts.length := by
        have := weldVertices_face_lt m eps f (by rw [← hM2]; exact hf) v hv
        rw [hM2]
        exact this
      unfold remapIdx
      rw [hkept, hlab, getD_range _ _ _ hvlt, posIn_range _ _ hvlt]
    rw [hmapid]
    apply List.filter_eq_self.mpr
    intro f hf
    have := weldVertices_faces_dedup m eps f (by rw [← hM2]; exact hf)
    simpa using this
  show weldVertices M2 eps = (M2, 0)
  unfold weldVertices
  rw [hverts2, hfaces2, hkept]
  simp

/-- Witness for C2 at a concrete two-vertex mesh and the script's epsilon. -/
theorem weldVertices_idempotent_witness :
    weldVertices (weldVertices ⟨[⟨0, 0, 0⟩, ⟨1, 0, 0⟩], [[0, 1]]⟩ (1/10000)).1 (1/10000) =
      ((weldVertices ⟨[⟨0, 0, 0⟩, ⟨1, 0, 0⟩], [[0, 1]]⟩ (1/10000)).1, 0) :=
  weldVertices_idempotent ⟨[⟨0, 0, 0⟩, ⟨1, 0, 0⟩], [[0, 1]]⟩ (1/10000) (by norm_num)

/-! ## Bounding boxes and the region classifiers

Translated from the Python sources: `make_legs_black_geometry.py`,
`split_by_angle.py`, `close_bottom.py`, `fix_bottom_normals.py`. -/

/-- A coordinate axis. -/
inductive Axis
  | x
  | y
  | z
deriving DecidableEq, Repr

/-- The coordinate of a point along an axis. -/
def coordAlong : Axis → Vec3 → ℚ
  | .x, v => v.x
  | .y, v => v.y
  | .z, v => v.z

/-- World-space per-axis minima and maxima of a mesh. -/
structure BBox where
  minX : ℚ
  maxX : ℚ
  minY : ℚ
  maxY : ℚ
  minZ : ℚ
  maxZ : ℚ
deriving DecidableEq, Repr

/-- Minimum of a list of rationals (0 for the empty list; the scripts always
run on nonempty vertex lists). -/
def listMin : List ℚ → ℚ
  | [] => 0
  | a :: t => t.foldl min a

/-- Maximum of a list of rationals (0 for the empty list). -/
def listMax : List ℚ → ℚ
  | [] => 0
  | a :: t => t.foldl max a

/-- Bounding box of a vertex list, as the scripts derive it from
`obj.bound_box` corners. -/
def bboxOf (vs : List Vec3) : BBox :=
  ⟨listMin (vs.map (fun v => v.x)), listMax (vs.map (fun v => v.x)),
   listMin (vs.map (fun v => v.y)), listMax (vs.map (fun v => v.y)),
   listMin (vs.map (fun v => v.z)), listMax (vs.map (fun v => v.z))⟩

/-- Minimum of a bounding box along an axis. -/
def bboxMinA : Axis → BBox → ℚ
  | .x, b => b.minX
  | .y, b => b.minY
  | .z, b => b.minZ

/-- Extent of a bounding box along an axis. -/
def bboxExtentA : Axis → BBox → ℚ
  | .x, b => b.maxX - b.minX
  | .y, b => b.maxY - b.minY
  | .z, b => b.maxZ - b.minZ

/-- Vertical-axis detection of `make_legs_black_geometry.py` lines 68-94:
Y when its extent is strictly below both others, else Z when strictly below
both others, else X. -/
def detectVerticalAxis (wx wy wz : ℚ) : Axis :=
  if wy < wx ∧ wy < wz then .y
  else if wz < wx ∧ wz < wy then .z
  else .x

/-- A face as the classifiers see it: its centroid (`poly.center` /
`calc_center_median`), its normal, its vertex winding, and its material
slot index. -/
structure Face where
  center : Vec3
  normal : Vec3
  winding : List Nat
  materialIndex : Nat
deriving DecidableEq, Repr

/-- A mesh as the classifiers see it. -/
structure GeoMesh where
  verts : List Vec3
  faces : List Face
deriving DecidableEq, Repr

/-- `make_legs_black_geometry.py` lines 68-94: the detected vertical axis
with its minimum and range, branch for branch as in the source. -/
def make_legs_black_setup (m : GeoMesh) : Axis × ℚ × ℚ :=
  let b := bboxOf m.verts
  let wx := b.maxX - b.minX
  let wy := b.maxY - b.minY
  let wz := b.maxZ - b.minZ
  if wy < wx ∧ wy < wz then (.y, b.minY, wy)
  else if wz < wx ∧ wz < wy then (.z, b.minZ, wz)
  else (.x, b.minX, wx)

/-- `make_legs_black_geometry.py` line 119: bottom 18.5 percent of the
detected vertical range. -/
def make_legs_black_threshold (m : GeoMesh) : ℚ :=
  (make_legs_black_setup m).2.1 + (make_legs_black_setup m).2.2 * (37/200)

/-- Position-based face partition (the face loop of
`make_legs_black_geometry.py` lines 124-142), with the axis and threshold
as parameters: centroid at most the threshold goes to the first group. -/
def classifyByPosition (faces : List Face) (axis : Axis) (thr : ℚ) :
    List Face × List Face :=
  faces.partition (fun f => coordAlong axis f.center ≤ thr)

/-- The primary leg/body partition of `make_legs_black_geometry.py`
lines 119-142. -/
def make_legs_black_primary (m : GeoMesh) : List Face × List Face :=
  classifyByPosition m.faces (make_legs_black_setup m).1 (make_legs_black_threshold m)

/-- The full classification of `make_legs_black_geometry.py` lines 119-163
including the fallback branch: when the primary legs group is empty the
source re-selects with `face_center_world.y <= leg_threshold_y`, but
`leg_threshold_y` is never assigned anywhere in the function, so with a
nonempty polygon list the comparison raises `NameError`; with an empty
polygon list the loop body never runs and processing continues. -/
def make_legs_black_classify (m : GeoMesh) : Except String (List Face × List Face) :=
  if (make_legs_black_primary m).1.isEmpty then
    match m.faces with
    | [] => .ok ([], [])
    | _ :: _ => .error "NameError: leg_threshold_y is not defined"
  else .ok (make_legs_black_primary m)

/-- `split_by_angle.py` lines 75-79: Z bounds of the model. -/
def splitMinZ (m : GeoMesh) : ℚ := listMin (m.verts.map (fun v => v.z))

/-- `split_by_angle.py` lines 75-79. -/
def splitMaxZ (m : GeoMesh) : ℚ := listMax (m.verts.map (fun v => v.z))

/-- `split_by_angle.py` line 82: `min_z + (z_range * 0.20)`, with the
fraction hard-coded. -/
def legHeightThreshold (m : GeoMesh) : ℚ :=
  splitMinZ m + (splitMaxZ m - splitMinZ m) * (1/5)

/-- The hybrid angle+position split of `split_by_angle.py` lines 94-111:
a face is a leg when its centre is strictly below the hard-coded bottom-20%
threshold AND its normal is near-horizontal.  The `height_percent` parameter
mirrors the Python signature (line 13) and, as in the source body, is never
read. -/
def split_by_angle_classify (m : GeoMesh) (z_threshold height_percent : ℚ) :
    List Face × List Face :=
  m.faces.partition (fun f =>
    f.center.z < legHeightThreshold m ∧ |f.normal.z| < z_threshold)

/-- Modelled from the spec: `classifyByAngle(mesh, axis, zThreshold)` (§4.5)
"partitions faces by `|normal[axis]| < zThreshold` → vertical-facing group,
else horizontal/angled group"; no script implements the pure-angle mode. -/
def classifyByAngle (faces : List Face) (axis : Axis) (zThreshold : ℚ) :
    List Face × List Face :=
  faces.partition (fun f => |coordAlong axis f.normal| < zThreshold)

/-- `close_bottom.py` line 68: `threshold_y = min_y + (max_x - min_x) * 0.05`
— the Y minimum offset by five percent of the X extent. -/
def closeBottomThreshold (b : BBox) : ℚ := b.minY + (b.maxX - b.minX) * (1/20)

/-- `close_bottom.py` lines 70-75: the selected bottom vertices. -/
def close_bottom_select (m : GeoMesh) : List Vec3 :=
  m.verts.filter (fun v => v.y ≤ closeBottomThreshold (bboxOf m.verts))

/-! ## The targeted bottom-band normal flip (`fix_bottom_normals.py`) -/

/-- Componentwise negation. -/
def vneg (v : Vec3) : Vec3 := ⟨-v.x, -v.y, -v.z⟩

/-- `fix_bottom_normals.py` line 73: bottom 15 percent of the Y range. -/
def fix_bottom_threshold (m : GeoMesh) : ℚ :=
  (bboxOf m.verts).minY + ((bboxOf m.verts).maxY - (bboxOf m.verts).minY) * (3/20)

/-- `fix_bottom_normals.py` lines 82-89: a face is selected for flipping
when its centre lies in the bottom band and its world normal points up. -/
def fix_bottom_inverted_test (m : GeoMesh) (f : Face) : Bool :=
  decide (f.center.y ≤ fix_bottom_threshold m) && decide (0 < f.normal.y)

/-- Reversing a face's winding; the recomputed normal is the negation. -/
def flipFace (f : Face) : Face :=
  ⟨f.center, vneg f.normal, f.winding.reverse, f.materialIndex⟩

/-- `fix_bottom_normals.py` lines 72-97: flip the selected faces, but only
when at least one face was selected. -/
def fix_bottom_normals_pass (m : GeoMesh) : GeoMesh :=
  if 0 < (m.faces.filter (fix_bottom_inverted_test m)).length then
    ⟨m.verts, m.faces.map (fun f =>
      if fix_bottom_inverted_test m f then flipFace f else f)⟩
  else m

/-! ## Materials -/

/-- A named material record. -/
structure Material where
  name : String
  baseColor : ℚ × ℚ × ℚ × ℚ
  roughness : ℚ
  metallic : ℚ
  specular : ℚ
deriving DecidableEq, Repr

/-- The material the last loop iteration of `split_by_angle.py`
lines 129-133 leaves bound to a name: the last list entry with that name. -/
def lookupMatLast (mats : List Material) (nm : String) : Option Material :=
  (mats.filter (fun mt => mt.name == nm)).getLast?

/-- The dark legs material created by `split_by_angle.py` lines 135-142
(base colour 0.1 grey; other Principled-BSDF slots keep host defaults). -/
def legsDefaultMaterial : Material := ⟨"legs", (1/10, 1/10, 1/10, 1), 1/2, 0, 1/2⟩

/-- The fabric material created by `split_by_angle.py` lines 144-146
(all Principled-BSDF slots keep host defaults). -/
def fabricDefaultMaterial : Material := ⟨"fabric", (4/5, 4/5, 4/5, 1), 1/2, 0, 1/2⟩

/-- Material creation of `split_by_angle.py` lines 125-146: look both names
up in the global material list; create (append) the legs material when
missing, then the fabric material when missing.  Returns the updated list
and the two materials. -/
def split_by_angle_ensure (mats : List Material) :
    List Material × Material × Material :=
  match lookupMatLast mats "legs", lookupMatLast mats "fabric" with
  | some lm, some fm => (mats, lm, fm)
  | some lm, none => (mats ++ [fabricDefaultMaterial], lm, fabricDefaultMaterial)
  | none, some fm => (mats ++ [legsDefaultMaterial], legsDefaultMaterial, fm)
  | none, none =>
    (mats ++ [legsDefaultMaterial] ++ [fabricDefaultMaterial],
      legsDefaultMaterial, fabricDefaultMaterial)

/-- The pure-black legs material of `make_legs_black_geometry.py`
lines 96-103. -/
def blackLegsMaterial : Material := ⟨"Black_Legs", (0, 0, 0, 1), 1, 0, 0⟩

/-- Material creation of `make_legs_black_geometry.py` lines 96-111: a new
`Black_Legs` material is created and appended unconditionally, with no
lookup of existing materials. -/
def make_legs_black_ensure (mats : List Material) : List Material × Material :=
  (mats ++ [blackLegsMaterial], blackLegsMaterial)

/-! ## Classification properties -/

theorem partition_props {α : Type} (p : α → Bool) (l : List α) :
    ((l.partition p).1 ++ (l.partition p).2).Perm l ∧
    (l.partition p).1.length + (l.partition p).2.length = l.length ∧
    ∀ x, ¬(x ∈ (l.partition p).1 ∧ x ∈ (l.partition p).2) := by
  rw [List.partition_eq_filter_filter]
  refine ⟨List.filter_append_perm p l, ?_, ?_⟩
  · have := (List.filter_append_perm p l).length_eq
    simpa [List.length_append] using this
  · rintro x ⟨h1, h2⟩
    have hp1 := List.of_mem_filter h1
    have hp2 := List.of_mem_filter h2
    simp_all

/-- Claim C3: every classification pass — position-based
(`make_legs_black_geometry.py`), hybrid (`split_by_angle.py`), and the
spec's pure-angle mode — assigns every face to exactly one of the two
groups: the groups are disjoint and together they are exactly the face
list. -/
theorem classification_partition_exact :
    (∀ m : GeoMesh,
      ((make_legs_black_primary m).1 ++ (make_legs_black_primary m).2).Perm m.faces ∧
      (make_legs_black_primary m).1.length + (make_legs_black_primary m).2.length =
        m.faces.length ∧
      ∀ f : Face, ¬(f ∈ (make_legs_black_primary m).1 ∧
        f ∈ (make_legs_black_primary m).2)) ∧
    (∀ (m : GeoMesh) (zt hp : ℚ),
      ((split_by_angle_classify m zt hp).1 ++ (split_by_angle_classify m zt hp).2).Perm
        m.faces ∧
      (split_by_angle_classify m zt hp).1.length +
        (split_by_angle_classify m zt hp).2.length = m.faces.length ∧
      ∀ f : Face, ¬(f ∈ (split_by_angle_classify m zt hp).1 ∧
        f ∈ (split_by_angle_classify m zt hp).2)) ∧
    (∀ (faces : List Face) (axis : Axis) (zt : ℚ),
      ((classifyByAngle faces axis zt).1 ++ (classifyByAngle faces axis zt).2).Perm
        faces ∧
      (classifyByAngle faces axis zt).1.length +
        (classifyByAngle faces axis zt).2.length = faces.length ∧
      ∀ f : Face, ¬(f ∈ (classifyByAngle faces axis zt).1 ∧
        f ∈ (classifyByAngle faces axis zt).2)) := by
  refine ⟨fun m => ?_, fun m zt hp => ?_, fun faces axis zt => ?_⟩
  · exact partition_props _ m.faces
  · exact partition_props _ m.faces
  · exact partition_props _ faces

/-- Shared concrete example: a tall thin mesh with one low side-facing
face. -/
def demoHybFace : Face := ⟨⟨0, 0, 1/10⟩, ⟨1, 0, 0⟩, [0, 1, 2], 0⟩

/-- Shared concrete example mesh. -/
def demoHybMesh : GeoMesh := ⟨[⟨0, 0, 0⟩, ⟨0, 0, 1⟩], [demoHybFace]⟩

/-- Witness for C3 at a concrete mesh (conclusion of the first component). -/
theorem classification_partition_exact_witness :
    ((make_legs_black_primary demoHybMesh).1 ++
      (make_legs_black_primary demoHybMesh).2).Perm demoHybMesh.faces :=
  (classification_partition_exact.1 demoHybMesh).1

/-- Claim C4: the legs group of the hybrid classifier is a subset of the
legs group of pure position-based classification with the same axis (Z) and
the same threshold: the hybrid test is the position test (strictly) AND the
angle test. -/
theorem hybrid_legs_subset_position_legs (m : GeoMesh) (zt hp : ℚ) :
    ∀ f ∈ (split_by_angle_classify m zt hp).1,
      f ∈ (classifyByPosition m.faces Axis.z (legHeightThreshold m)).1 := by
  intro f hf
  unfold split_by_angle_classify at hf
  rw [List.partition_eq_filter_filter] at hf
  have h1 := List.of_mem_filter hf
  have h2 := List.mem_of_mem_filter hf
  unfold classifyByPosition
  rw [List.partition_eq_filter_filter]
  apply List.mem_filter.mpr
  refine ⟨h2, ?_⟩
  simp only [decide_eq_true_eq] at h1 ⊢
  show coordAlong Axis.z f.center ≤ legHeightThreshold m
  exact le_of_lt h1.1

/-- Witness for C4: the low side-facing face is hybrid-legs and
position-legs. -/
theorem hybrid_legs_subset_position_legs_witness :
    demoHybFace ∈ (classifyByPosition demoHybMesh.faces Axis.z
      (legHeightThreshold demoHybMesh)).1 :=
  hybrid_legs_subset_position_legs demoHybMesh (1/2) 0 demoHybFace (by
    unfold split_by_angle_classify
    rw [List.partition_eq_filter_filter]
    apply List.mem_filter.mpr
    refine ⟨by simp [demoHybMesh], ?_⟩
    simp only [decide_eq_true_eq]
    constructor
    · show demoHybFace.center.z < legHeightThreshold demoHybMesh
      simp only [legHeightThreshold, splitMinZ, splitMaxZ, demoHybMesh, demoHybFace,
        listMin, listMax, List.map, List.foldl]
      norm_num
    · show |demoHybFace.normal.z| < 1/2
      simp only [demoHybFace]
      norm_num)

/-- The extent associated to an axis among the three given extents. -/
def extentAlong3 (a : Axis) (wx wy wz : ℚ) : ℚ :=
  match a with
  | .x => wx
  | .y => wy
  | .z => wz

/-- Counterexample to C5 as stated: with extents (2, 1, 1) — Y and Z tied
for smallest — the detection returns X, whose extent 2 is not minimal. -/
theorem detectVerticalAxis_tie_counterexample :
    detectVerticalAxis 2 1 1 = Axis.x ∧
    min (min 2 1) 1 < extentAlong3 (detectVerticalAxis 2 1 1) 2 1 1 := by
  decide

/-- Claim C5 amended: detection is deterministic with the fixed branch
order Y, then Z, else X.  Whenever one axis's extent is strictly smallest
the detection returns that axis; in every other (tie) case it returns the
fallback X, whose extent need not be minimal (see the counterexample).
`make_legs_black_geometry.py` computes exactly this detection on the
bounding-box extents. -/
theorem detectVerticalAxis_strict_min :
    (∀ wx wy wz : ℚ,
      (wy < wx ∧ wy < wz → detectVerticalAxis wx wy wz = Axis.y) ∧
      (wz < wx ∧ wz < wy → detectVerticalAxis wx wy wz = Axis.z) ∧
      (wx < wy ∧ wx < wz → detectVerticalAxis wx wy wz = Axis.x) ∧
      (¬(wy < wx ∧ wy < wz) → ¬(wz < wx ∧ wz < wy) →
        detectVerticalAxis wx wy wz = Axis.x)) ∧
    (∀ m : GeoMesh, (make_legs_black_setup m).1 =
      detectVerticalAxis ((bboxOf m.verts).maxX - (bboxOf m.verts).minX)
        ((bboxOf m.verts).maxY - (bboxOf m.verts).minY)
        ((bboxOf m.verts).maxZ - (bboxOf m.verts).minZ)) := by
  constructor
  · intro wx wy wz
    refine ⟨?_, ?_, ?_, ?_⟩
    · intro h
      simp [detectVerticalAxis, h]
    · intro h
      have hy : ¬(wy < wx ∧ wy < wz) := by
        rintro ⟨_, h2⟩
        exact absurd h.2 (by linarith)
      simp [detectVerticalAxis, hy, h]
    · intro h
      have hy : ¬(wy < wx ∧ wy < wz) := by
        rintro ⟨h1, _⟩
        exact absurd h.1 (by linarith)
      have hz : ¬(wz < wx ∧ wz < wy) := by
        rintro ⟨h1, _⟩
        exact absurd h.2 (by linarith)
      simp [detectVerticalAxis, hy, hz]
    · intro h1 h2
      simp [detectVerticalAxis, h1, h2]
  · intro m
    simp only [make_legs_black_setup, detectVerticalAxis]
    split_ifs <;> rfl

/-- Witness for C5 amended, at concrete extents for each branch. -/
theorem detectVerticalAxis_strict_min_witness :
    detectVerticalAxis 3 1 2 = Axis.y ∧ detectVerticalAxis 3 2 1 = Axis.z ∧
    detectVerticalAxis 1 2 3 = Axis.x ∧ detectVerticalAxis 2 1 1 = Axis.x :=
  ⟨(detectVerticalAxis_strict_min.1 3 1 2).1 (by decide),
   (detectVerticalAxis_strict_min.1 3 2 1).2.1 (by decide),
   (detectVerticalAxis_strict_min.1 1 2 3).2.2.1 (by decide),
   (detectVerticalAxis_strict_min.1 2 1 1).2.2.2 (by decide) (by decide)⟩

/-- Concrete mesh for the C6 counterexample: X extent 20, Y extent 1. -/
def cbDemoMesh : GeoMesh := ⟨[⟨0, 0, 0⟩, ⟨20, 1, 0⟩, ⟨0, 1, 0⟩], []⟩

theorem cbDemoMesh_bbox : bboxOf cbDemoMesh.verts = ⟨0, 20, 0, 1, 0, 0⟩ := by
  simp only [bboxOf, cbDemoMesh, listMin, listMax, List.map_cons, List.map_nil,
    List.foldl_cons, List.foldl_nil]
  norm_num [min_def, max_def]

/-- Counterexample to C6 as stated: `close_bottom` does not compute its
threshold from the vertical axis's own minimum and extent — it uses the X
extent with the Y minimum, so on `cbDemoMesh` its selection differs from the
claimed same-axis formula. -/
theorem close_bottom_not_same_axis_formula :
    close_bottom_select cbDemoMesh ≠
      cbDemoMesh.verts.filter (fun v =>
        v.y ≤ (bboxOf cbDemoMesh.verts).minY +
          ((bboxOf cbDemoMesh.verts).maxY - (bboxOf cbDemoMesh.verts).minY) * (1/20)) := by
  intro hEq
  have h1 : (⟨20, 1, 0⟩ : Vec3) ∈ close_bottom_select cbDemoMesh := by
    unfold close_bottom_select
    apply List.mem_filter.mpr
    refine ⟨by simp [cbDemoMesh], ?_⟩
    simp only [decide_eq_true_eq, cbDemoMesh_bbox]
    norm_num [closeBottomThreshold]
  have h2 : (⟨20, 1, 0⟩ : Vec3) ∉
      cbDemoMesh.verts.filter (fun v =>
        v.y ≤ (bboxOf cbDemoMesh.verts).minY +
          ((bboxOf cbDemoMesh.verts).maxY - (bboxOf cbDemoMesh.verts).minY) * (1/20)) := by
    intro hc
    have hle := List.of_mem_filter hc
    simp only [decide_eq_true_eq, cbDemoMesh_bbox] at hle
    norm_num at hle
  rw [hEq] at h1
  exact h2 h1

/-- Claim C6 amended: `make_legs_black_geometry.py` computes its threshold
from the detected vertical axis's own minimum and extent (fraction 0.185)
and sends faces with centroid ≤ threshold along that axis to the legs group,
as the claim states; but `split_by_angle.py` compares the Z centroid
strictly (`<`, bottom 20% of Z), and `close_bottom.py` computes
`min_y + 0.05·(max_x − min_x)` — the X extent, not the Y extent — and
selects vertices, not face centroids. -/
theorem position_threshold_per_script :
    (∀ m : GeoMesh,
      make_legs_black_threshold m =
        bboxMinA (make_legs_black_setup m).1 (bboxOf m.verts) +
          bboxExtentA (make_legs_black_setup m).1 (bboxOf m.verts) * (37/200) ∧
      (make_legs_black_primary m).1 =
        m.faces.filter (fun f =>
          decide (coordAlong (make_legs_black_setup m).1 f.center ≤
            make_legs_black_threshold m))) ∧
    (∀ (m : GeoMesh) (zt hp : ℚ),
      ∀ f ∈ (split_by_angle_classify m zt hp).1,
        f.center.z < legHeightThreshold m) ∧
    (∀ m : GeoMesh,
      close_bottom_select m =
        m.verts.filter (fun v =>
          decide (v.y ≤ (bboxOf m.verts).minY +
            ((bboxOf m.verts).maxX - (bboxOf m.verts).minX) * (1/20)))) := by
  refine ⟨fun m => ⟨?_, ?_⟩, fun m zt hp f hf => ?_, fun m => rfl⟩
  · unfold make_legs_black_threshold
    simp only [make_legs_black_setup]
    split_ifs <;> rfl
  · unfold make_legs_black_primary classifyByPosition
    rw [List.partition_eq_filter_filter]
  · unfold split_by_angle_classify at hf
    rw [List.partition_eq_filter_filter] at hf
    have h1 := List.of_mem_filter hf
    simp only [decide_eq_true_eq] at h1
    exact h1.1

/-- Witness for C6 amended: the low face of the demo mesh is strictly below
the hybrid threshold, and the other parts instantiated concretely. -/
theorem position_threshold_per_script_witness :
    demoHybFace.center.z < legHeightThreshold demoHybMesh ∧
    close_bottom_select cbDemoMesh =
      cbDemoMesh.verts.filter (fun v =>
        decide (v.y ≤ (bboxOf cbDemoMesh.verts).minY +
          ((bboxOf cbDemoMesh.verts).maxX - (bboxOf cbDemoMesh.verts).minX) * (1/20))) :=
  ⟨position_threshold_per_script.2.1 demoHybMesh (1/2) 0 demoHybFace (by
      unfold split_by_angle_classify
      rw [List.partition_eq_filter_filter]
      apply List.mem_filter.mpr
      refine ⟨by simp [demoHybMesh], ?_⟩
      simp only [decide_eq_true_eq]
      constructor
      · show demoHybFace.center.z < legHeightThreshold demoHybMesh
        simp only [legHeightThreshold, splitMinZ, splitMaxZ, demoHybMesh, demoHybFace,
          listMin, listMax, List.map, List.foldl]
        norm_num
      · show |demoHybFace.normal.z| < 1/2
        simp only [demoHybFace]
        norm_num),
    position_threshold_per_script.2.2 cbDemoMesh⟩

/-- Concrete mesh for C7: the detected vertical axis is Y, the single face's
centroid sits at the top of the Y range, so the primary legs group is
empty and the fallback branch runs. -/
def c7Mesh : GeoMesh := ⟨[⟨0, 0, 0⟩, ⟨10, 1, 5⟩], [⟨⟨5, 1, 2⟩, ⟨0, 0, 1⟩, [0, 1], 0⟩]⟩

theorem c7Mesh_setup : make_legs_black_setup c7Mesh = (Axis.y, 0, 1) := by
  simp only [make_legs_black_setup, c7Mesh, bboxOf, listMin, listMax, List.map_cons,
    List.map_nil, List.foldl_cons, List.foldl_nil]
  norm_num [min_def, max_def]

/-- Claim C7 (code defect): on a mesh whose primary legs group is empty and
whose polygon list is nonempty, the classification of
`make_legs_black_geometry.py` reaches the fallback branch and fails with a
`NameError` on the undefined `leg_threshold_y`, instead of re-running
position-only classification on the detected axis. -/
theorem make_legs_black_fallback_raises :
    make_legs_black_classify c7Mesh =
      Except.error "NameError: leg_threshold_y is not defined" := by
  have hthr : make_legs_black_threshold c7Mesh = 37/200 := by
    rw [make_legs_black_threshold, c7Mesh_setup]
    norm_num
  have hprim : (make_legs_black_primary c7Mesh).1 = [] := by
    unfold make_legs_black_primary classifyByPosition
    rw [List.partition_eq_filter_filter]
    simp only [c7Mesh_setup, hthr]
    simp only [c7Mesh, coordAlong, List.filter_cons, List.filter_nil]
    norm_num
  unfold make_legs_black_classify
  rw [hprim]
  simp [c7Mesh]

/-- Claim C8: the targeted pass of `fix_bottom_normals.py` flips exactly the
faces whose centroid lies in the bottom band of the vertical (Y) axis and
whose normal has a positive Y component; every other face keeps its winding
and normal, and the vertices are untouched.  Flipping reverses the winding
and negates the recomputed normal. -/
theorem fix_bottom_normals_flips_exactly (m : GeoMesh) :
    (fix_bottom_normals_pass m).verts = m.verts ∧
    (fix_bottom_normals_pass m).faces =
      m.faces.map (fun f => if fix_bottom_inverted_test m f then flipFace f else f) ∧
    (∀ f : Face, flipFace f =
      ⟨f.center, vneg f.normal, f.winding.reverse, f.materialIndex⟩) ∧
    (∀ f : Face, fix_bottom_inverted_test m f =
      (decide (f.center.y ≤ fix_bottom_threshold m) && decide (0 < f.normal.y))) := by
  refine ⟨?_, ?_, fun f => rfl, fun f => rfl⟩
  · unfold fix_bottom_normals_pass
    split <;> rfl
  · unfold fix_bottom_normals_pass
    split
    · rfl
    · next h =>
      have hnil : m.faces.filter (fix_bottom_inverted_test m) = [] := by
        apply List.length_eq_zero.mp
        omega
      have hall := List.filter_eq_nil_iff.mp hnil
      refine (map_id_of_mem _ _ (fun f hf => ?_)).symm
      have hfalse : fix_bottom_inverted_test m f = false := by
        simpa using hall f hf
      rw [hfalse]
      simp

/-! ## Material bookkeeping -/

theorem lookupMatLast_name {mats : List Material} {nm : String} {mt : Material}
    (h : lookupMatLast mats nm = some mt) : mt ∈ mats ∧ mt.name = nm := by
  unfold lookupMatLast at h
  have h1 : mt ∈ (mats.filter (fun x => x.name == nm)).getLast? := by
    rw [Option.mem_def]
    exact h
  obtain ⟨hne, heq⟩ := List.mem_getLast?_eq_getLast h1
  have hmem : mt ∈ mats.filter (fun x => x.name == nm) := heq ▸ List.getLast_mem hne
  exact ⟨List.mem_of_mem_filter hmem, by simpa using List.of_mem_filter hmem⟩

theorem lookupMatLast_isSome_of_mem {mats : List Material} {nm : String}
    (h : ∃ mt ∈ mats, mt.name = nm) : ∃ mt, lookupMatLast mats nm = some mt := by
  obtain ⟨mt, hmem, hname⟩ := h
  have hf : mt ∈ mats.filter (fun x => x.name == nm) :=
    List.mem_filter.mpr ⟨hmem, by simp [hname]⟩
  have hne : mats.filter (fun x => x.name == nm) ≠ [] := by
    intro hc
    rw [hc] at hf
    simp at hf
  exact ⟨_, List.getLast?_eq_getLast_of_ne_nil hne⟩

theorem split_ensure_has_name (mats : List Material) :
    (∃ mt ∈ (split_by_angle_ensure mats).1, mt.name = "legs") ∧
    (∃ mt ∈ (split_by_angle_ensure mats).1, mt.name = "fabric") := by
  unfold split_by_angle_ensure
  cases hleg : lookupMatLast mats "legs" with
  | some lm =>
    cases hfab : lookupMatLast mats "fabric" with
    | some fm =>
      have h1 := lookupMatLast_name hleg
      have h2 := lookupMatLast_name hfab
      exact ⟨⟨lm, h1.1, h1.2⟩, ⟨fm, h2.1, h2.2⟩⟩
    | none =>
      have h1 := lookupMatLast_name hleg
      refine ⟨⟨lm, List.mem_append_left _ h1.1, h1.2⟩,
        ⟨fabricDefaultMaterial, List.mem_append_right _ (by simp), rfl⟩⟩
  | none =>
    cases hfab : lookupMatLast mats "fabric" with
    | some fm =>
      have h2 := lookupMatLast_name hfab
      exact ⟨⟨legsDefaultMaterial, List.mem_append_right _ (by simp), rfl⟩,
        ⟨fm, List.mem_append_left _ h2.1, h2.2⟩⟩
    | none =>
      refine ⟨⟨legsDefaultMaterial, ?_, rfl⟩, ⟨fabricDefaultMaterial, ?_, rfl⟩⟩
      · exact List.mem_append_left _ (List.mem_append_right _ (by simp))
      · exact List.mem_append_right _ (by simp)

/-- Claim C9 amended: the material creation of `split_by_angle.py` is
idempotent by name — it reuses existing `legs`/`fabric` materials and a
second run appends nothing — but the creation in
`make_legs_black_geometry.py` appends a fresh `Black_Legs` material on
every run, with no lookup of existing materials. -/
theorem material_creation_split_idem_black_appends :
    (∀ mats : List Material,
      (split_by_angle_ensure (split_by_angle_ensure mats).1).1 =
        (split_by_angle_ensure mats).1) ∧
    (∀ mats : List Material,
      (make_legs_black_ensure mats).1.length = mats.length + 1) := by
  constructor
  · intro mats
    obtain ⟨lm, hl⟩ := lookupMatLast_isSome_of_mem (split_ensure_has_name mats).1
    obtain ⟨fm, hf⟩ := lookupMatLast_isSome_of_mem (split_ensure_has_name mats).2
    conv_lhs => rw [split_by_angle_ensure]
    rw [hl, hf]
  · intro mats
    simp [make_legs_black_ensure]

/-- Counterexample to C9 as stated: running the `Black_Legs` material
creation twice produces two materials of that name. -/
theorem make_legs_black_ensure_duplicates :
    (((make_legs_black_ensure (make_legs_black_ensure []).1).1).filter
      (fun mt => mt.name == "Black_Legs")).length = 2 := by
  rfl

/-- Claim C10: the hybrid splitter's `height_percent` parameter is never
read — any two calls differing only in it classify identically — and the
leg-band threshold actually used is `min_z + 0.20 * (max_z - min_z)`. -/
theorem split_by_angle_height_percent_unused (m : GeoMesh) (zt hp hp' : ℚ) :
    split_by_angle_classify m zt hp = split_by_angle_classify m zt hp' ∧
    legHeightThreshold m = splitMinZ m + (splitMaxZ m - splitMinZ m) * (1/5) :=
  ⟨rfl, rfl⟩

end Furnitech
